import Mathlib

/-!
# Verification of the csv-pipeline streaming CSV transformation library

Shallow embedding of the Rust sources (`src/headers.rs`, `src/pipeline.rs`,
`src/pipeline_iterators.rs`, `src/transform.rs`) and proofs about them.

Modelling conventions:
* `csv::StringRecord` (the `Row` alias) is modelled as `List String`;
  `StringRecord::get` is `List.get?`, `push_field` appends.
* `BTreeMap<String, usize>` is modelled as an association list
  `List (String × Nat)` with map semantics (`insert` replaces, `remove`
  deletes the key); the claims never rely on the B-tree's iteration order.
* Rust iterators are embedded by the stream of items they emit: for each
  iterator adapter we define a function computing the full emitted list
  from the upstream's emitted list, following the source's `next` body
  case by case.
* The `u64` result of `DefaultHasher` is abstracted: the hasher state is
  the list of strings written to it (in write order) and finishing applies
  an arbitrary function `hashFn : List String → K` to that list.  All
  theorems quantify over `K` and `hashFn`.
* Panics are modelled by an `Option` layer (`none` = panic).
-/

namespace CsvPipeline

/-- `Row` — alias of `csv::StringRecord`: an ordered sequence of string
fields (`src/lib.rs`). -/
abbrev Row := List String

/-- The error enumeration of `src/lib.rs`.  `csv::Error` contents are
opaque I/O data; we keep only a message string. -/
inductive Error where
  | csv (msg : String)
  | missingColumn (name : String)
  | duplicateColumn (name : String)
  | invalidField (raw : String)
  | mismatchedHeaders (a b : Row)
  deriving DecidableEq, Repr

/-- `PlError` — an `Error` tagged with the originating source index
(`src/lib.rs`). -/
structure PlError where
  error : Error
  source : Nat
  deriving DecidableEq, Repr

/-- `Error::at_source` (`src/lib.rs`). -/
def Error.at_source (e : Error) (source : Nat) : PlError :=
  { error := e, source := source }

/-- `RowResult` — alias of `Result<Row, PlError>` (`src/lib.rs`). -/
abbrev RowResult := Except PlError Row

instance {E A : Type} [DecidableEq E] [DecidableEq A] :
    DecidableEq (Except E A)
  | Except.error a, Except.error b =>
    if h : a = b then Decidable.isTrue (by rw [h])
    else Decidable.isFalse (fun hc => h (Except.error.inj hc))
  | Except.error a, Except.ok b => Decidable.isFalse Except.noConfusion
  | Except.ok a, Except.error b => Decidable.isFalse Except.noConfusion
  | Except.ok a, Except.ok b =>
    if h : a = b then Decidable.isTrue (by rw [h])
    else Decidable.isFalse (fun hc => h (Except.ok.inj hc))

/-! ## Association-list model of `BTreeMap<String, usize>` -/

/-- `BTreeMap::get` (first matching key; keys are unique in any map the
library builds). -/
def lookupAL (m : List (String × Nat)) (k : String) : Option Nat :=
  match m with
  | [] => none
  | (k', v) :: rest => if k' = k then some v else lookupAL rest k

/-- `BTreeMap::insert`: replaces the value when the key is present,
otherwise appends the new binding. -/
def insertAL (m : List (String × Nat)) (k : String) (v : Nat) :
    List (String × Nat) :=
  match m with
  | [] => [(k, v)]
  | (k', v') :: rest =>
    if k' = k then (k, v) :: rest else (k', v') :: insertAL rest k v

/-- `BTreeMap::remove`: deletes the key's binding (a no-op when the key is
absent). -/
def removeAL (m : List (String × Nat)) (k : String) : List (String × Nat) :=
  match m with
  | [] => []
  | (k', v') :: rest =>
    if k' = k then rest else (k', v') :: removeAL rest k

/-! ## Headers (`src/headers.rs`) -/

/-- `Headers`: name→position map plus the canonical header row. -/
structure Headers where
  indexes : List (String × Nat)
  row : Row
  deriving DecidableEq, Repr

/-- `RenameError` (`src/headers.rs`). -/
inductive RenameError where
  | DuplicateColumn (index : Nat)
  | MissingColumn
  deriving DecidableEq, Repr

namespace Headers

/-- `Headers::new`. -/
def new : Headers := { indexes := [], row := [] }

/-- `Headers::get_index`. -/
def get_index (h : Headers) (name : String) : Option Nat :=
  lookupAL h.indexes name

/-- `Headers::contains`. -/
def contains (h : Headers) (name : String) : Bool :=
  (lookupAL h.indexes name).isSome

/-- `Headers::get_field`: position lookup then row indexing. -/
def get_field (h : Headers) (row : Row) (name : String) : Option String :=
  (lookupAL h.indexes name).bind (fun index => row.get? index)

/-- `Headers::get_row`. -/
def get_row (h : Headers) : Row := h.row

/-- `Headers::rename`.  The Rust method mutates `&mut self` and returns a
`Result<(), RenameError>`; we return the (possibly updated) `Headers`
together with `none` on success / `some e` on failure, mirroring the
source's order of operations: the `to`-duplicate check happens first, then
`indexes.remove(from)` (a no-op when `from` is absent), then the insert
and the in-place row update `row_vec[index] = to`. -/
def rename (h : Headers) (from_ to_ : String) : Headers × Option RenameError :=
  match h.get_index to_ with
  | some index => (h, some (RenameError.DuplicateColumn index))
  | none =>
    match lookupAL h.indexes from_ with
    | none => (h, some RenameError.MissingColumn)
    | some index =>
      ({ indexes := insertAL (removeAL h.indexes from_) to_ index,
         row := h.row.set index to_ }, none)

/-- `Headers::push_field`: returns `false` (and leaves the headers
unchanged) when the name already exists, otherwise appends the name to the
row and records its position. -/
def push_field (h : Headers) (name : String) : Headers × Bool :=
  if h.contains name then (h, false)
  else
    ({ indexes := insertAL h.indexes name h.row.length,
       row := h.row ++ [name] }, true)

/-- The loop body of `Headers::from_row`: push each field in order,
stopping with the duplicated name on the first failed push. -/
def from_rowAux (h : Headers) : List String → Except String Headers
  | [] => Except.ok h
  | f :: rest =>
    match h.push_field f with
    | (h', true) => from_rowAux h' rest
    | (_, false) => Except.error f

/-- `Headers::from_row`. -/
def from_row (row : Row) : Except String Headers :=
  from_rowAux new row

/-- The Headers invariant (spec §3): column names are pairwise unique,
every recorded binding points at a valid position holding that very name,
and every position's name is mapped back to that position. -/
def Wf (h : Headers) : Prop :=
  (h.indexes.map Prod.fst).Nodup ∧
  (∀ p ∈ h.indexes, h.row.get? p.2 = some p.1) ∧
  (∀ i, ∀ hi : i < h.row.length, lookupAL h.indexes (h.row.get ⟨i, hi⟩) = some i)

instance (h : Headers) : Decidable h.Wf := by
  unfold Wf
  exact inferInstance

end Headers

/-! ### Lemmas about the association-list operations -/

theorem lookupAL_eq_none_iff (m : List (String × Nat)) (k : String) :
    lookupAL m k = none ↔ ∀ p ∈ m, p.1 ≠ k := by
  induction m with
  | nil => simp [lookupAL]
  | cons p rest ih =>
    obtain ⟨k', v⟩ := p
    by_cases hk : k' = k <;> simp [lookupAL, hk, ih]

theorem mem_of_lookupAL {m : List (String × Nat)} {k : String} {v : Nat}
    (hl : lookupAL m k = some v) : (k, v) ∈ m := by
  induction m with
  | nil => simp [lookupAL] at hl
  | cons p rest ih =>
    obtain ⟨k', v'⟩ := p
    by_cases hk : k' = k
    · subst hk
      simp [lookupAL] at hl
      simp [hl]
    · simp [lookupAL, hk] at hl
      exact List.mem_cons_of_mem _ (ih hl)

theorem insertAL_of_lookup_none {m : List (String × Nat)} {k : String}
    (hl : lookupAL m k = none) (v : Nat) : insertAL m k v = m ++ [(k, v)] := by
  induction m with
  | nil => simp [insertAL]
  | cons p rest ih =>
    obtain ⟨k', v'⟩ := p
    by_cases hk : k' = k
    · simp [lookupAL, hk] at hl
    · simp [lookupAL, hk] at hl
      simp [insertAL, hk, ih hl]

theorem lookupAL_insertAL_self (m : List (String × Nat)) (k : String) (v : Nat) :
    lookupAL (insertAL m k v) k = some v := by
  induction m with
  | nil => simp [insertAL, lookupAL]
  | cons p rest ih =>
    obtain ⟨k', v'⟩ := p
    by_cases hk : k' = k <;> simp [insertAL, lookupAL, hk, ih]

theorem lookupAL_insertAL_ne (m : List (String × Nat)) {k k' : String} (v : Nat)
    (hne : k' ≠ k) : lookupAL (insertAL m k v) k' = lookupAL m k' := by
  have hne' : ¬ k = k' := fun h => hne (Eq.symm h)
  induction m with
  | nil => simp [insertAL, lookupAL, hne']
  | cons p rest ih =>
    obtain ⟨k'', v''⟩ := p
    by_cases hk : k'' = k
    · subst hk
      simp [insertAL, lookupAL, hne']
    · by_cases hk' : k'' = k' <;> simp [insertAL, lookupAL, hk, hk', ih, hne]

theorem lookupAL_removeAL_ne (m : List (String × Nat)) {k k' : String}
    (hne : k' ≠ k) : lookupAL (removeAL m k) k' = lookupAL m k' := by
  have hne' : ¬ k = k' := fun h => hne (Eq.symm h)
  induction m with
  | nil => simp [removeAL]
  | cons p rest ih =>
    obtain ⟨k'', v''⟩ := p
    by_cases hk : k'' = k
    · subst hk
      simp [removeAL, lookupAL, hne']
    · by_cases hk' : k'' = k' <;> simp [removeAL, lookupAL, hk, hk', ih, hne]

theorem mem_removeAL {m : List (String × Nat)} {k : String}
    {p : String × Nat} (hp : p ∈ removeAL m k) : p ∈ m := by
  induction m with
  | nil => simp [removeAL] at hp
  | cons q rest ih =>
    obtain ⟨k', v'⟩ := q
    by_cases hk : k' = k
    · simp [removeAL, hk] at hp
      exact List.mem_cons_of_mem _ hp
    · simp [removeAL, hk] at hp
      rcases hp with hp | hp
      · simp [hp]
      · exact List.mem_cons_of_mem _ (ih hp)

theorem removeAL_sublist (m : List (String × Nat)) (k : String) :
    List.Sublist (removeAL m k) m := by
  induction m with
  | nil => simp [removeAL]
  | cons q rest ih =>
    obtain ⟨k', v'⟩ := q
    by_cases hk : k' = k
    · simp only [removeAL, if_pos hk]
      exact List.sublist_cons_self (k', v') rest
    · simpa [removeAL, hk] using List.Sublist.cons₂ (k', v') ih

theorem lookupAL_removeAL_self {m : List (String × Nat)} {k : String}
    (hnd : (m.map Prod.fst).Nodup) : lookupAL (removeAL m k) k = none := by
  induction m with
  | nil => simp [removeAL, lookupAL]
  | cons q rest ih =>
    obtain ⟨k', v'⟩ := q
    simp only [List.map_cons, List.nodup_cons] at hnd
    by_cases hk : k' = k
    · subst hk
      simp only [removeAL, if_pos rfl]
      rw [lookupAL_eq_none_iff]
      intro p hp hpk
      exact hnd.1 (hpk ▸ List.mem_map_of_mem Prod.fst hp)
    · simp [removeAL, lookupAL, hk, ih hnd.2]

theorem mem_removeAL_ne {m : List (String × Nat)} {k : String}
    {p : String × Nat} (hnd : (m.map Prod.fst).Nodup)
    (hp : p ∈ removeAL m k) : p.1 ≠ k := by
  intro hpk
  have hnone := lookupAL_removeAL_self (m := m) (k := k) hnd
  rw [lookupAL_eq_none_iff] at hnone
  exact hnone p hp hpk

theorem lookupAL_append_left {m₁ m₂ : List (String × Nat)} {k : String} {v : Nat}
    (hl : lookupAL m₁ k = some v) : lookupAL (m₁ ++ m₂) k = some v := by
  induction m₁ with
  | nil => simp [lookupAL] at hl
  | cons p rest ih =>
    obtain ⟨k', v'⟩ := p
    by_cases hk : k' = k <;> simp_all [lookupAL, hk]

theorem lookupAL_append_right {m₁ m₂ : List (String × Nat)} {k : String}
    (hl : lookupAL m₁ k = none) : lookupAL (m₁ ++ m₂) k = lookupAL m₂ k := by
  induction m₁ with
  | nil => simp
  | cons p rest ih =>
    obtain ⟨k', v'⟩ := p
    by_cases hk : k' = k <;> simp_all [lookupAL, hk]

/-! ### Preservation of the Headers invariant -/

namespace Headers

theorem wf3_get? {h : Headers} (hw : h.Wf) {i : Nat} {n : String}
    (hget : h.row.get? i = some n) : lookupAL h.indexes n = some i := by
  rcases List.get?_eq_some.mp hget with ⟨hi, hg⟩
  exact hg ▸ hw.2.2 i hi

theorem wf_new : Wf new := by
  refine ⟨List.nodup_nil, ?_, ?_⟩
  · intro p hp
    simp [new] at hp
  · intro i hi
    simp [new] at hi

theorem contains_eq_false_iff (h : Headers) (n : String) :
    h.contains n = false ↔ lookupAL h.indexes n = none := by
  unfold contains
  cases lookupAL h.indexes n <;> simp

theorem push_field_of_fresh {h : Headers} {n : String}
    (hc : h.contains n = false) :
    h.push_field n =
      ({ indexes := h.indexes ++ [(n, h.row.length)], row := h.row ++ [n] },
        true) := by
  have hnone : lookupAL h.indexes n = none := (contains_eq_false_iff h n).mp hc
  simp [push_field, hc, insertAL_of_lookup_none hnone]

theorem wf_push_field {h : Headers} (hw : h.Wf) (n : String) :
    (h.push_field n).1.Wf := by
  by_cases hc : h.contains n
  · simpa [push_field, hc] using hw
  · have hc' : h.contains n = false := by simpa using hc
    have hnone : lookupAL h.indexes n = none := (contains_eq_false_iff h n).mp hc'
    rw [push_field_of_fresh hc']
    have hnotmem : n ∉ h.indexes.map Prod.fst := by
      intro hmem
      rcases List.mem_map.mp hmem with ⟨p, hp, hpn⟩
      exact (lookupAL_eq_none_iff _ _).mp hnone p hp hpn
    refine ⟨?_, ?_, ?_⟩
    · simp only [List.map_append, List.map_cons, List.map_nil]
      rw [List.nodup_append]
      refine ⟨hw.1, List.nodup_singleton n, ?_⟩
      intro a ha hb
      simp only [List.mem_singleton] at hb
      subst hb
      exact hnotmem ha
    · intro p hp
      rcases List.mem_append.mp hp with hp | hp
      · have hv := hw.2.1 p hp
        have hlen : p.2 < h.row.length := (List.get?_eq_some.mp hv).1
        rw [List.get?_append hlen]
        exact hv
      · simp only [List.mem_singleton] at hp
        subst hp
        simp [List.get?_concat_length]
    · intro i hi
      simp only [List.length_append, List.length_cons, List.length_nil] at hi
      by_cases hilt : i < h.row.length
      · have hgets : (h.row ++ [n]).get? i = h.row.get? i := List.get?_append hilt
        have hgetv : h.row.get? i = some (h.row.get ⟨i, hilt⟩) := List.get?_eq_get hilt
        have hname : (h.row ++ [n]).get ⟨i, by simpa using hi⟩ = h.row.get ⟨i, hilt⟩ := by
          have := hgets.trans hgetv
          rw [List.get?_eq_get (by simpa using hi)] at this
          exact Option.some_injective _ this
        rw [hname]
        exact lookupAL_append_left (hw.2.2 i hilt)
      · have hieq : i = h.row.length := by omega
        subst hieq
        have hgets : (h.row ++ [n]).get? h.row.length = some n :=
          List.get?_concat_length h.row n
        have hname : (h.row ++ [n]).get ⟨h.row.length, by simpa using hi⟩ = n := by
          rw [List.get?_eq_get (by simpa using hi)] at hgets
          exact Option.some_injective _ hgets
        rw [hname, lookupAL_append_right hnone]
        simp [lookupAL]

theorem rename_fst_of_failure {h : Headers} {f t : String}
    (hr : ((h.rename f t).2).isSome) : (h.rename f t).1 = h := by
  unfold rename at *
  cases hto : h.get_index t with
  | some i => rfl
  | none =>
    cases hfrom : lookupAL h.indexes f with
    | none => rfl
    | some i =>
      rw [hto, hfrom] at hr
      simp at hr

theorem wf_rename {h : Headers} (hw : h.Wf) (f t : String) :
    (h.rename f t).1.Wf := by
  unfold rename
  cases hto : h.get_index t with
  | some i => exact hw
  | none =>
    cases hfrom : lookupAL h.indexes f with
    | none => exact hw
    | some index =>
      simp only []
      have hto' : lookupAL h.indexes t = none := hto
      have hidx : h.row.get? index = some f := hw.2.1 (f, index) (mem_of_lookupAL hfrom)
      have hlen : index < h.row.length := (List.get?_eq_some.mp hidx).1
      have hft : f ≠ t := by
        intro heq
        rw [heq, hto'] at hfrom
        exact Option.noConfusion hfrom
      have hndrem : ((removeAL h.indexes f).map Prod.fst).Nodup :=
        ((removeAL_sublist h.indexes f).map Prod.fst).nodup hw.1
      have hremt : lookupAL (removeAL h.indexes f) t = none := by
        rw [lookupAL_removeAL_ne h.indexes (Ne.symm hft)]
        exact hto'
      have hins : insertAL (removeAL h.indexes f) t index =
          removeAL h.indexes f ++ [(t, index)] :=
        insertAL_of_lookup_none hremt index
      rw [hins]
      refine ⟨?_, ?_, ?_⟩
      · simp only [List.map_append, List.map_cons, List.map_nil]
        rw [List.nodup_append]
        refine ⟨hndrem, List.nodup_singleton t, ?_⟩
        intro a ha hb
        simp only [List.mem_singleton] at hb
        subst hb
        rcases List.mem_map.mp ha with ⟨p, hp, hpt⟩
        exact (lookupAL_eq_none_iff _ _).mp hremt p hp hpt
      · intro p hp
        rcases List.mem_append.mp hp with hp | hp
        · have hpm : p ∈ h.indexes := mem_removeAL hp
          have hpf : p.1 ≠ f := mem_removeAL_ne hw.1 hp
          have hv := hw.2.1 p hpm
          have hpne : p.2 ≠ index := by
            intro heq
            rw [heq, hidx] at hv
            exact hpf (Option.some_injective _ hv).symm
          rw [List.get?_set_ne t h.row (fun heq => hpne heq.symm)]
          exact hv
        · simp only [List.mem_singleton] at hp
          subst hp
          exact List.get?_set_eq_of_lt t hlen
      · intro i hi
        have hi' : i < h.row.length := by simpa using hi
        by_cases hie : i = index
        · subst hie
          have hgets : (h.row.set i t).get? i = some t := List.get?_set_eq_of_lt t hlen
          have hname : (h.row.set i t).get ⟨i, hi⟩ = t := by
            rw [List.get?_eq_get hi] at hgets
            exact Option.some_injective _ hgets
          rw [hname, lookupAL_append_right hremt]
          simp [lookupAL]
        · have hgets : (h.row.set index t).get? i = h.row.get? i :=
            List.get?_set_ne t h.row (fun heq => hie heq.symm)
          have hname : (h.row.set index t).get ⟨i, hi⟩ = h.row.get ⟨i, hi'⟩ := by
            rw [List.get?_eq_get hi, List.get?_eq_get hi'] at hgets
            exact Option.some_injective _ hgets
          rw [hname]
          set n := h.row.get ⟨i, hi'⟩ with hn
          have hln : lookupAL h.indexes n = some i := hw.2.2 i hi'
          have hnf : n ≠ f := by
            intro heq
            rw [heq, hfrom] at hln
            exact hie (Option.some_injective _ hln).symm
          rw [lookupAL_append_left]
          rw [lookupAL_removeAL_ne h.indexes hnf]
          exact hln

theorem wf_from_rowAux {h : Headers} (hw : h.Wf) {l : List String} {h' : Headers}
    (hr : from_rowAux h l = Except.ok h') : h'.Wf := by
  induction l generalizing h with
  | nil =>
    unfold from_rowAux at hr
    cases hr
    exact hw
  | cons fld rest ih =>
    unfold from_rowAux at hr
    cases hpf : h.push_field fld with
    | mk h₁ added =>
      rw [hpf] at hr
      cases added with
      | true =>
        have hw₁ : h₁.Wf := by
          have := wf_push_field hw fld
          rw [hpf] at this
          exact this
        exact ih hw₁ hr
      | false => exact Except.noConfusion hr

theorem contains_push_field_fresh {h : Headers} {n : String}
    (hc : h.contains n = false) (g : String) :
    (h.push_field n).1.contains g = (h.contains g || decide (g = n)) := by
  rw [push_field_of_fresh hc]
  by_cases hg : g = n
  · subst hg
    have hnone : lookupAL h.indexes g = none := (contains_eq_false_iff h g).mp hc
    simp [contains, lookupAL_append_right hnone, lookupAL, hc]
  · cases hl : lookupAL h.indexes g with
    | some v => simp [contains, lookupAL_append_left hl, hl, hg]
    | none =>
      have hng : ¬ n = g := fun he => hg (Eq.symm he)
      have hall : lookupAL (h.indexes ++ [(n, h.row.length)]) g = none := by
        rw [lookupAL_append_right hl]
        simp [lookupAL, hng]
      simp [contains, hall, hl, hg]

theorem from_rowAux_ok {l : List String} :
    ∀ {h : Headers}, (∀ f ∈ l, h.contains f = false) → l.Nodup →
    ∃ h', Headers.from_rowAux h l = Except.ok h' ∧ h'.row = h.row ++ l := by
  induction l with
  | nil => exact fun _ _ => ⟨_, rfl, by simp⟩
  | cons fld rest ih =>
    intro h hfresh hnd
    have hc : h.contains fld = false := hfresh fld (List.mem_cons_self fld rest)
    have hpush := push_field_of_fresh hc
    have hfresh' : ∀ f ∈ rest, (h.push_field fld).1.contains f = false := by
      intro f hf
      rw [contains_push_field_fresh hc f]
      have h1 : h.contains f = false := hfresh f (List.mem_cons_of_mem _ hf)
      have h2 : f ≠ fld := fun heq => (List.nodup_cons.mp hnd).1 (heq ▸ hf)
      simp [h1, h2]
    rcases ih hfresh' (List.nodup_cons.mp hnd).2 with ⟨h', hok, hrow⟩
    refine ⟨h', ?_, ?_⟩
    · unfold from_rowAux
      rw [hpush]
      rw [hpush] at hok
      exact hok
    · rw [hrow, hpush]
      simp

end Headers

/-- The `C4` claim: after construction (`new`, `from_row`) and after every
(successful or failed) `push_field` and `rename`, the Headers invariant
holds: names are pairwise unique, every name maps to exactly one valid
position of the canonical name row, and the map and the row denote the
same association.  (On failure both operations return the untouched
`Headers`, so the `.1` projection covers the successful and the failed
case alike.) -/
theorem headers_invariant_preserved :
    Headers.Wf Headers.new ∧
    (∀ (r : Row) (h : Headers), Headers.from_row r = Except.ok h → h.Wf) ∧
    (∀ (h : Headers) (n : String), h.Wf → ((h.push_field n).1).Wf) ∧
    (∀ (h : Headers) (f t : String), h.Wf → ((h.rename f t).1).Wf) :=
  ⟨Headers.wf_new,
   fun _ _ hr => Headers.wf_from_rowAux Headers.wf_new hr,
   fun _ n hw => Headers.wf_push_field hw n,
   fun _ f t hw => Headers.wf_rename hw f t⟩

/-- Witness for `C4` at concrete inputs. -/
theorem headers_invariant_preserved_witness :
    ((Headers.push_field { indexes := [("A", 0)], row := ["A"] } "B").1).Wf ∧
    ((Headers.rename { indexes := [("A", 0)], row := ["A"] } "A" "B").1).Wf :=
  ⟨headers_invariant_preserved.2.2.1 _ "B" (by decide),
   headers_invariant_preserved.2.2.2 _ "A" "B" (by decide)⟩

/-- Counterexample to `C5` as stated: in `{A}`, renaming the absent column
`B` to the existing name `A` fails with `DuplicateColumn`, not with
`MissingColumn`, because the source checks the `to`-duplicate first.  The
claim's clause "fails with MissingColumn when `from` is not a column name"
is therefore false on this input. -/
theorem rename_error_precedence_cex :
    Headers.contains { indexes := [("A", 0)], row := ["A"] } "B" = false ∧
    (Headers.rename { indexes := [("A", 0)], row := ["A"] } "B" "A").2 =
      some (RenameError.DuplicateColumn 0) ∧
    some (RenameError.DuplicateColumn 0) ≠ some RenameError.MissingColumn := by
  decide

/-- The `C5` claim, amended for the source's precedence: `rename(from, to)`
fails with `DuplicateColumn` whenever `to` is already a column name (even
when `from` is absent), fails with `MissingColumn` when `from` is absent
and `to` is not a column name, leaves the Headers unchanged on any
failure, and on success (for well-formed Headers) rewrites only position
`i` of the name row (where `i` is `from`'s position), maps `to` to `i`,
unmaps `from`, and leaves every other column's name and position
untouched. -/
theorem rename_amended (h : Headers) (f t : String) :
    (∀ i, h.get_index t = some i →
      h.rename f t = (h, some (RenameError.DuplicateColumn i))) ∧
    (h.get_index t = none → h.get_index f = none →
      h.rename f t = (h, some RenameError.MissingColumn)) ∧
    (((h.rename f t).2).isSome → (h.rename f t).1 = h) ∧
    (∀ i, h.Wf → h.get_index t = none → h.get_index f = some i →
      i < h.row.length ∧
      (h.rename f t).2 = none ∧
      (h.rename f t).1.row = h.row.set i t ∧
      (h.rename f t).1.get_index t = some i ∧
      (h.rename f t).1.get_index f = none ∧
      (∀ n, n ≠ f → n ≠ t → (h.rename f t).1.get_index n = h.get_index n)) := by
  refine ⟨?_, ?_, fun hs => Headers.rename_fst_of_failure hs, ?_⟩
  · intro i hto
    unfold Headers.rename
    rw [hto]
  · intro hto hfrom
    unfold Headers.rename
    rw [hto]
    unfold Headers.get_index at hfrom
    rw [hfrom]
  · intro i hw hto hfrom
    unfold Headers.get_index at hto hfrom
    have hidx : h.row.get? i = some f := hw.2.1 (f, i) (mem_of_lookupAL hfrom)
    have hlen : i < h.row.length := (List.get?_eq_some.mp hidx).1
    have hft : f ≠ t := by
      intro heq
      rw [heq, hto] at hfrom
      exact Option.noConfusion hfrom
    have hrw : h.rename f t =
        ({ indexes := insertAL (removeAL h.indexes f) t i,
           row := h.row.set i t }, none) := by
      unfold Headers.rename Headers.get_index
      rw [hto, hfrom]
    refine ⟨hlen, by rw [hrw], by rw [hrw], ?_, ?_, ?_⟩
    · rw [hrw]
      exact lookupAL_insertAL_self _ t i
    · rw [hrw]
      show lookupAL (insertAL (removeAL h.indexes f) t i) f = none
      rw [lookupAL_insertAL_ne _ i hft]
      exact lookupAL_removeAL_self hw.1
    · intro n hnf hnt
      rw [hrw]
      show lookupAL (insertAL (removeAL h.indexes f) t i) n = lookupAL h.indexes n
      rw [lookupAL_insertAL_ne _ i hnt]
      exact lookupAL_removeAL_ne _ hnf

/-- Witness for `C5`'s amended theorem at concrete inputs: renaming `A` to
`C` in `{A, B}` succeeds and produces the name row `[C, B]`. -/
theorem rename_amended_witness :
    (Headers.rename { indexes := [("A", 0), ("B", 1)], row := ["A", "B"] }
      "A" "C").1.row = ["C", "B"] := by
  have hs := (rename_amended
    { indexes := [("A", 0), ("B", 1)], row := ["A", "B"] } "A" "C").2.2.2 0
    (by decide) (by decide) (by decide)
  rw [hs.2.2.1]
  decide

/-- `Pipeline::from_rows` (`src/pipeline.rs`): `records.next().unwrap()`
panics on an empty collection (modelled as `none`); a duplicate name in
the first row yields `Err(DuplicateColumn(name).at_source(0))`; otherwise
the remaining rows are emitted, in order, as `Ok` items. -/
def Pipeline.from_rows (records : List Row) :
    Option (Except PlError (Headers × List RowResult)) :=
  match records with
  | [] => none
  | headers_row :: rest =>
    some (match Headers.from_row headers_row with
      | Except.ok headers => Except.ok (headers, rest.map Except.ok)
      | Except.error duplicated_col =>
        Except.error ((Error.duplicateColumn duplicated_col).at_source 0))

/-- The `C10` claim: `Pipeline::from_rows` panics (modelled `none`) on an
empty collection, and on a non-empty collection whose first row has no
duplicate fields it succeeds with that first row as the Headers and
yields the remaining rows, in order, as `Ok` items. -/
theorem from_rows_spec :
    Pipeline.from_rows [] = none ∧
    (∀ (r : Row) (rest : List Row), r.Nodup →
      ∃ h, Headers.from_row r = Except.ok h ∧ h.row = r ∧
        Pipeline.from_rows (r :: rest) =
          some (Except.ok (h, rest.map Except.ok))) := by
  refine ⟨rfl, ?_⟩
  intro r rest hnd
  have hfresh : ∀ f ∈ r, Headers.new.contains f = false := by
    intro f _
    rfl
  rcases Headers.from_rowAux_ok (h := Headers.new) hfresh hnd with ⟨h, hok, hrow⟩
  refine ⟨h, hok, by simpa [Headers.new] using hrow, ?_⟩
  have hfr : Headers.from_row r = Except.ok h := hok
  show some (match Headers.from_row r with
      | Except.ok headers => Except.ok (headers, rest.map Except.ok)
      | Except.error duplicated_col =>
        Except.error ((Error.duplicateColumn duplicated_col).at_source 0)) =
    some (Except.ok (h, rest.map Except.ok))
  rw [hfr]

/-- Witness for `C10` at a concrete input. -/
theorem from_rows_spec_witness :
    Pipeline.from_rows [["A", "B"], ["1", "2"]] =
      some (Except.ok ({ indexes := [("A", 0), ("B", 1)], row := ["A", "B"] },
        [Except.ok ["1", "2"]])) := by
  obtain ⟨h, hfr, hrow, heq⟩ :=
    from_rows_spec.2 ["A", "B"] [["1", "2"]] (by decide)
  have hh : h = { indexes := [("A", 0), ("B", 1)], row := ["A", "B"] } := by
    have hfr' : Headers.from_row ["A", "B"] =
        Except.ok ({ indexes := [("A", 0), ("B", 1)], row := ["A", "B"] }
          : Headers) := by rfl
    rw [hfr'] at hfr
    exact (Except.ok.inj hfr).symm
  rw [hh] at heq
  exact heq

/-! ## Reducers (`src/transform.rs`) -/

/-- Model of Rust `str::parse` for the integer accumulator of `Sum`:
an optional leading sign followed by one or more decimal digits.
(The Rust code is generic over `N: FromStr + AddAssign`; we instantiate
with unbounded integers, which agrees with `i64`/`BigDecimal` on every
in-range integer literal.) -/
def parseIntOpt (s : String) : Option Int :=
  let signed : Int × List Char :=
    match s.toList with
    | '+' :: rest => (1, rest)
    | '-' :: rest => (-1, rest)
    | rest => (1, rest)
  if signed.2 = [] then none
  else if signed.2.all Char.isDigit then
    some (signed.1 *
      (signed.2.foldl (fun acc c => 10 * acc + (c.toNat - '0'.toNat)) (0 : Nat) : Int))
  else none

/-- The closed set of `Transform` implementations of `src/transform.rs`:
`KeepUnique`, `Sum` (integer instantiation), `Reduce` (value displayed as
a string) and `Count`.  Each constructor carries the struct's fields,
including the private accumulator. -/
inductive Transform where
  | keepUnique (name from_col : String) (value : String)
  | sum (name from_col : String) (value : Int)
  | reduce (name from_col : String)
      (reducer : String → String → Except Error String) (value : String)
  | count (name : String) (value : Nat)

/-- `Transform::name` — the resulting column name. -/
def Transform.name : Transform → String
  | Transform.keepUnique n _ _ => n
  | Transform.sum n _ _ => n
  | Transform.reduce n _ _ _ => n
  | Transform.count n _ => n

/-- `Transform::value` — finalize the accumulator to a string. -/
def Transform.value : Transform → String
  | Transform.keepUnique _ _ v => v
  | Transform.sum _ _ v => toString v
  | Transform.reduce _ _ _ v => v
  | Transform.count _ v => toString v

/-- `Transform::add_row` — fold one row into the accumulator.  The Rust
method mutates `&mut self` and returns `Result<(), Error>`; we return the
updated transform or the error (none of the four implementations mutates
before erroring).  `KeepUnique` records the latest field value, `Sum`
parses and adds (failing with `InvalidField`), `Reduce` applies the
user closure, `Count` increments unconditionally. -/
def Transform.add_row (t : Transform) (headers : Headers) (row : Row) :
    Except Error Transform :=
  match t with
  | Transform.keepUnique n c _ =>
    match headers.get_field row c with
    | some field => Except.ok (Transform.keepUnique n c field)
    | none => Except.error (Error.missingColumn c)
  | Transform.sum n c v =>
    match headers.get_field row c with
    | none => Except.error (Error.missingColumn c)
    | some field =>
      match parseIntOpt field with
      | some x => Except.ok (Transform.sum n c (v + x))
      | none => Except.error (Error.invalidField field)
  | Transform.reduce n c f v =>
    match headers.get_field row c with
    | none => Except.error (Error.missingColumn c)
    | some field => (f v field).map (Transform.reduce n c f)
  | Transform.count n v => Except.ok (Transform.count n (v + 1))

/-- `Transform::hash` — the strings this transform writes into the
`DefaultHasher`.  Only `KeepUnique` overrides the default: it writes its
column's field (erring with `MissingColumn` when absent); the trait's
default implementation writes nothing and returns `Ok(())`. -/
def Transform.hashContrib : Transform → Headers → Row → Except Error (List String)
  | Transform.keepUnique _ c _, headers, row =>
    match headers.get_field row c with
    | some field => Except.ok [field]
    | none => Except.error (Error.missingColumn c)
  | _, _, _ => Except.ok []

/-- The hasher-state accumulation inside `compute_hash`
(`src/transform.rs`): feed the row to every transformer in order,
aborting on the first error; the hasher state is the list of written
strings. -/
def hashWrites : List Transform → Headers → Row → Except Error (List String)
  | [], _, _ => Except.ok []
  | t :: rest, headers, row =>
    match t.hashContrib headers row with
    | Except.error e => Except.error e
    | Except.ok w =>
      match hashWrites rest headers row with
      | Except.error e => Except.error e
      | Except.ok ws => Except.ok (w ++ ws)

section TransformInto

variable {K : Type} [DecidableEq K]

/-- `compute_hash` (`src/transform.rs`): run every transformer's `hash`
over a fresh hasher and finish.  `hashFn` abstracts
`DefaultHasher::finish` over the written strings. -/
def compute_hash (hashFn : List String → K) (transformers : List Transform)
    (headers : Headers) (row : Row) : Except Error K :=
  (hashWrites transformers headers row).map hashFn

/-- `LinkedHashMap::contains_key` on the insertion-ordered group registry. -/
def containsKey (groups : List (K × List Transform)) (k : K) : Bool :=
  groups.any (fun g => decide (g.1 = k))

/-- `LinkedHashMap::get` on the insertion-ordered group registry. -/
def lookupG (groups : List (K × List Transform)) (k : K) :
    Option (List Transform) :=
  match groups with
  | [] => none
  | (k', v) :: rest => if k' = k then some v else lookupG rest k

/-- In-place value update at a key (`get_mut`), preserving insertion order. -/
def updateG (groups : List (K × List Transform)) (k : K)
    (v : List Transform) : List (K × List Transform) :=
  match groups with
  | [] => []
  | (k', v') :: rest =>
    if k' = k then (k, v) :: rest else (k', v') :: updateG rest k v

/-- The reducer loop of `TransformInto::next` (`src/pipeline_iterators.rs`):
apply `add_row` to each reducer of the group in order; the first error
stops the loop, keeping the earlier reducers' updates and leaving the
failing and the following reducers untouched. -/
def addRowAll (headers : Headers) (row : Row) :
    List Transform → List Transform × Option Error
  | [] => ([], none)
  | t :: rest =>
    match t.add_row headers row with
    | Except.ok t' =>
      match addRowAll headers row rest with
      | (rest', e) => (t' :: rest', e)
    | Except.error e => (t :: rest, some e)

variable (hashFn : List String → K) (hashers init : List Transform)
  (headers : Headers) (source : Nat)

/-- One accumulating iteration of `TransformInto::next` on an `Ok` row:
compute the group hash (erring at the stage's source index on failure),
materialize a fresh reducer set at the end of the registry on a first
occurrence (`Entry::Vacant`), then fold the row into the group's
reducers, erring at the stage's source index on the first `add_row`
failure.  `init` models the pure `get_transformers` closure. -/
def tiStep (groups : List (K × List Transform)) (row : Row) :
    List (K × List Transform) × Option PlError :=
  match compute_hash hashFn hashers headers row with
  | Except.error e => (groups, some (e.at_source source))
  | Except.ok hash =>
    let groups' := if containsKey groups hash then groups
                   else groups ++ [(hash, init)]
    match addRowAll headers row ((lookupG groups' hash).getD []) with
    | (rs, none) => (updateG groups' hash rs, none)
    | (rs, some e) => (updateG groups' hash rs, some (e.at_source source))

/-- The stream of items emitted by `TransformInto` (`src/pipeline_iterators.rs`):
while the upstream is live, upstream errors are passed through unchanged
and accumulation errors are emitted in place of rows (the iterator stays
pollable, resuming the accumulation loop on the next pull); once the
upstream is exhausted the groups are drained from the front of the
registry, one finalized row per group, in insertion order. -/
def tiRun : List RowResult → List (K × List Transform) → List RowResult
  | [], groups => groups.map (fun g => Except.ok (g.2.map Transform.value))
  | Except.error e :: rest, groups =>
    Except.error e :: tiRun rest groups
  | Except.ok row :: rest, groups =>
    match tiStep hashFn hashers init headers source groups row with
    | (groups', none) => tiRun rest groups'
    | (groups', some pe) => Except.error pe :: tiRun rest groups'

/-- The error items `tiRun` emits before the drain phase. -/
def tiErrors : List RowResult → List (K × List Transform) → List RowResult
  | [], _ => []
  | Except.error e :: rest, groups => Except.error e :: tiErrors rest groups
  | Except.ok row :: rest, groups =>
    match tiStep hashFn hashers init headers source groups row with
    | (groups', none) => tiErrors rest groups'
    | (groups', some pe) => Except.error pe :: tiErrors rest groups'

/-- The group registry after the whole upstream has been accumulated. -/
def accumG : List RowResult → List (K × List Transform) →
    List (K × List Transform)
  | [], groups => groups
  | Except.error _ :: rest, groups => accumG rest groups
  | Except.ok row :: rest, groups =>
    accumG rest (tiStep hashFn hashers init headers source groups row).1

/-- The group hashes of the upstream's `Ok` rows whose hash computation
succeeds, in stream order. -/
def okHashes : List RowResult → List K
  | [] => []
  | Except.error _ :: rest => okHashes rest
  | Except.ok row :: rest =>
    match compute_hash hashFn hashers headers row with
    | Except.ok k => k :: okHashes rest
    | Except.error _ => okHashes rest

end TransformInto

/-- First-occurrence deduplication: the order in which distinct keys are
first observed, given the keys already seen. -/
def firstSeenAux {K : Type} [DecidableEq K] (seen : List K) : List K → List K
  | [] => []
  | k :: ks =>
    if k ∈ seen then firstSeenAux seen ks else k :: firstSeenAux (k :: seen) ks

/-! ### Structure of the Group-Reduce stream (claim C1) -/

section TransformIntoLemmas

variable {K : Type} [DecidableEq K]

theorem keys_updateG (groups : List (K × List Transform)) (k : K)
    (v : List Transform) :
    (updateG groups k v).map Prod.fst = groups.map Prod.fst := by
  induction groups with
  | nil => rfl
  | cons g rest ih =>
    obtain ⟨k', v'⟩ := g
    by_cases hk : k' = k <;> simp [updateG, hk, ih]

theorem containsKey_iff (groups : List (K × List Transform)) (k : K) :
    containsKey groups k = true ↔ k ∈ groups.map Prod.fst := by
  unfold containsKey
  rw [List.any_eq_true]
  constructor
  · rintro ⟨g, hg, hgk⟩
    exact List.mem_map.mpr ⟨g, hg, of_decide_eq_true hgk⟩
  · intro hmem
    rcases List.mem_map.mp hmem with ⟨g, hg, hgk⟩
    exact ⟨g, hg, decide_eq_true hgk⟩

theorem firstSeenAux_congr {seen₁ seen₂ : List K}
    (hs : ∀ a, a ∈ seen₁ ↔ a ∈ seen₂) (l : List K) :
    firstSeenAux seen₁ l = firstSeenAux seen₂ l := by
  induction l generalizing seen₁ seen₂ with
  | nil => rfl
  | cons k ks ih =>
    unfold firstSeenAux
    by_cases hk : k ∈ seen₁
    · rw [if_pos hk, if_pos ((hs k).mp hk)]
      exact ih hs
    · rw [if_neg hk, if_neg (fun hm => hk ((hs k).mpr hm))]
      refine congrArg (k :: ·) (ih ?_)
      intro a
      simp [hs a]

variable (hashFn : List String → K) (hashers init : List Transform)
  (headers : Headers) (source : Nat)

theorem tiStep_keys (groups : List (K × List Transform)) (row : Row) :
    ((tiStep hashFn hashers init headers source groups row).1).map Prod.fst =
      match compute_hash hashFn hashers headers row with
      | Except.error _ => groups.map Prod.fst
      | Except.ok k =>
        if containsKey groups k then groups.map Prod.fst
        else groups.map Prod.fst ++ [k] := by
  unfold tiStep
  cases hch : compute_hash hashFn hashers headers row with
  | error e => rfl
  | ok k =>
    by_cases hck : containsKey groups k
    · simp only [hck, if_true]
      cases hall : addRowAll headers row ((lookupG groups k).getD []) with
      | mk rs oe => cases oe <;> simp [keys_updateG]
    · simp only [hck, if_false, Bool.false_eq_true]
      cases hall : addRowAll headers row
          ((lookupG (groups ++ [(k, init)]) k).getD []) with
      | mk rs oe => cases oe <;> simp [keys_updateG]

theorem accumG_keys (ups : List RowResult) :
    ∀ groups : List (K × List Transform),
      (accumG hashFn hashers init headers source ups groups).map Prod.fst =
        groups.map Prod.fst ++
          firstSeenAux (groups.map Prod.fst)
            (okHashes hashFn hashers headers ups) := by
  induction ups with
  | nil => intro groups; simp [accumG, okHashes, firstSeenAux]
  | cons item rest ih =>
    intro groups
    cases item with
    | error e => simpa [accumG, okHashes] using ih groups
    | ok row =>
      rw [show accumG hashFn hashers init headers source (Except.ok row :: rest) groups
          = accumG hashFn hashers init headers source rest
              (tiStep hashFn hashers init headers source groups row).1 from rfl]
      rw [ih]
      rw [tiStep_keys]
      cases hch : compute_hash hashFn hashers headers row with
      | error e =>
        simp [okHashes, hch]
      | ok k =>
        by_cases hck : containsKey groups k
        · have hmem : k ∈ groups.map Prod.fst := (containsKey_iff groups k).mp hck
          simp only [hck, if_true]
          rw [show okHashes hashFn hashers headers (Except.ok row :: rest)
              = k :: okHashes hashFn hashers headers rest from by
            simp [okHashes, hch]]
          rw [show firstSeenAux (groups.map Prod.fst)
              (k :: okHashes hashFn hashers headers rest)
              = firstSeenAux (groups.map Prod.fst)
                  (okHashes hashFn hashers headers rest) from by
            simp [firstSeenAux, hmem]]
        · have hmem : k ∉ groups.map Prod.fst :=
            fun hm => hck ((containsKey_iff groups k).mpr hm)
          simp only [hck, if_false, Bool.false_eq_true]
          rw [show okHashes hashFn hashers headers (Except.ok row :: rest)
              = k :: okHashes hashFn hashers headers rest from by
            simp [okHashes, hch]]
          rw [show firstSeenAux (groups.map Prod.fst)
              (k :: okHashes hashFn hashers headers rest)
              = k :: firstSeenAux (k :: groups.map Prod.fst)
                  (okHashes hashFn hashers headers rest) from by
            simp [firstSeenAux, hmem]]
          rw [List.append_assoc, List.singleton_append]
          refine congrArg (groups.map Prod.fst ++ ·) (congrArg (k :: ·) ?_)
          refine firstSeenAux_congr (fun a => ?_) _
          simp [or_comm]

theorem tiRun_cons_ok (groups : List (K × List Transform)) (row : Row)
    (rest : List RowResult) :
    tiRun hashFn hashers init headers source (Except.ok row :: rest) groups =
      (match tiStep hashFn hashers init headers source groups row with
       | (groups', none) => tiRun hashFn hashers init headers source rest groups'
       | (groups', some pe) =>
         Except.error pe ::
           tiRun hashFn hashers init headers source rest groups') := rfl

theorem tiErrors_cons_ok (groups : List (K × List Transform)) (row : Row)
    (rest : List RowResult) :
    tiErrors hashFn hashers init headers source (Except.ok row :: rest) groups =
      (match tiStep hashFn hashers init headers source groups row with
       | (groups', none) =>
         tiErrors hashFn hashers init headers source rest groups'
       | (groups', some pe) =>
         Except.error pe ::
           tiErrors hashFn hashers init headers source rest groups') := rfl

theorem accumG_cons_ok (groups : List (K × List Transform)) (row : Row)
    (rest : List RowResult) :
    accumG hashFn hashers init headers source (Except.ok row :: rest) groups =
      accumG hashFn hashers init headers source rest
        (tiStep hashFn hashers init headers source groups row).1 := rfl

theorem tiRun_eq_errors_append_drain (ups : List RowResult) :
    ∀ groups : List (K × List Transform),
      tiRun hashFn hashers init headers source ups groups =
        tiErrors hashFn hashers init headers source ups groups ++
          (accumG hashFn hashers init headers source ups groups).map
            (fun g => Except.ok (g.2.map Transform.value)) := by
  induction ups with
  | nil => intro groups; simp [tiRun, tiErrors, accumG]
  | cons item rest ih =>
    intro groups
    cases item with
    | error e => simpa [tiRun, tiErrors, accumG] using ih groups
    | ok row =>
      rw [tiRun_cons_ok, tiErrors_cons_ok, accumG_cons_ok]
      cases hstep : tiStep hashFn hashers init headers source groups row with
      | mk groups' oe =>
        cases oe with
        | none => simpa using ih groups'
        | some pe => simpa using ih groups'

theorem tiErrors_all_error (ups : List RowResult) :
    ∀ (groups : List (K × List Transform))
      (x : RowResult),
      x ∈ tiErrors hashFn hashers init headers source ups groups →
      ∃ e, x = Except.error e := by
  induction ups with
  | nil => intro groups x hx; simp [tiErrors] at hx
  | cons item rest ih =>
    intro groups x hx
    cases item with
    | error e =>
      rw [show tiErrors hashFn hashers init headers source
          (Except.error e :: rest) groups
          = Except.error e :: tiErrors hashFn hashers init headers source rest groups
          from rfl] at hx
      rcases List.mem_cons.mp hx with hx | hx
      · exact ⟨e, hx⟩
      · exact ih groups x hx
    | ok row =>
      rw [tiErrors_cons_ok] at hx
      cases hstep : tiStep hashFn hashers init headers source groups row with
      | mk groups' oe =>
        simp only [hstep] at hx
        cases oe with
        | none => exact ih groups' x hx
        | some pe =>
          rcases List.mem_cons.mp hx with hx | hx
          · exact ⟨pe, hx⟩
          · exact ih groups' x hx

end TransformIntoLemmas

/-- The `C1` claim: every item `TransformInto` emits while its upstream is
live is an error item, so no output row precedes upstream exhaustion; the
rows emitted after exhaustion are the finalized groups, and their keys are
exactly the distinct group hashes in the order they were first observed
among the upstream's successfully hashed rows. -/
theorem transform_into_first_seen_order {K : Type} [DecidableEq K]
    (hashFn : List String → K) (hashers init : List Transform)
    (headers : Headers) (source : Nat) (ups : List RowResult) :
    tiRun hashFn hashers init headers source ups [] =
      tiErrors hashFn hashers init headers source ups [] ++
        (accumG hashFn hashers init headers source ups []).map
          (fun g => Except.ok (g.2.map Transform.value)) ∧
    (∀ x ∈ tiErrors hashFn hashers init headers source ups [],
      ∃ e, x = Except.error e) ∧
    (accumG hashFn hashers init headers source ups []).map Prod.fst =
      firstSeenAux [] (okHashes hashFn hashers headers ups) :=
  ⟨tiRun_eq_errors_append_drain hashFn hashers init headers source ups [],
   fun x hx => tiErrors_all_error hashFn hashers init headers source ups [] x hx,
   by simpa using accumG_keys hashFn hashers init headers source ups []⟩

/-! ### Fold failures inside a group (claim C3) -/

section GroupLemmas

variable {K : Type} [DecidableEq K]

theorem lookupG_eq_some_of_mem_keys {groups : List (K × List Transform)}
    {k : K} (hmem : k ∈ groups.map Prod.fst) :
    ∃ ts, lookupG groups k = some ts := by
  induction groups with
  | nil => simp at hmem
  | cons g rest ih =>
    obtain ⟨k', v⟩ := g
    by_cases hk : k' = k
    · exact ⟨v, by simp [lookupG, hk]⟩
    · have : k ∈ rest.map Prod.fst := by
        rcases List.mem_cons.mp hmem with hx | hx
        · exact absurd hx.symm hk
        · exact hx
      rcases ih this with ⟨ts, hts⟩
      exact ⟨ts, by simp [lookupG, hk, hts]⟩

theorem mem_of_lookupG {groups : List (K × List Transform)} {k : K}
    {ts : List Transform} (hl : lookupG groups k = some ts) :
    (k, ts) ∈ groups := by
  induction groups with
  | nil => simp [lookupG] at hl
  | cons g rest ih =>
    obtain ⟨k', v⟩ := g
    by_cases hk : k' = k
    · subst hk
      simp [lookupG] at hl
      simp [hl]
    · simp [lookupG, hk] at hl
      exact List.mem_cons_of_mem _ (ih hl)

end GroupLemmas

/-- How `addRowAll` fails: there is a failing reducer index `i`; every
reducer before `i` was folded successfully and updated, and the failing
reducer together with every reducer after it is returned untouched. -/
theorem addRowAll_error_shape (headers : Headers) (row : Row) :
    ∀ (rs rs' : List Transform) (e : Error),
      addRowAll headers row rs = (rs', some e) →
      ∃ i, i < rs.length ∧
        (∀ j, i ≤ j → rs'.get? j = rs.get? j) ∧
        (∃ t, rs.get? i = some t ∧ t.add_row headers row = Except.error e) ∧
        (∀ j, j < i → ∃ u t', rs.get? j = some u ∧
          u.add_row headers row = Except.ok t' ∧ rs'.get? j = some t') := by
  intro rs
  induction rs with
  | nil => intro rs' e h; simp [addRowAll] at h
  | cons t rest ih =>
    intro rs' e h
    unfold addRowAll at h
    cases hadd : t.add_row headers row with
    | ok t' =>
      rw [hadd] at h
      cases hrec : addRowAll headers row rest with
      | mk rest' oe =>
        rw [hrec] at h
        cases oe with
        | none => simp at h
        | some e' =>
          have h1 : t' :: rest' = rs' := congrArg Prod.fst h
          have h2 : (some e' : Option Error) = some e := congrArg Prod.snd h
          have he : e' = e := Option.some_injective _ h2
          rw [he] at hrec
          subst h1
          rcases ih rest' e hrec with ⟨i, hilen, hsuf, ⟨u, hu, hue⟩, hpre⟩
          refine ⟨i + 1, by simpa using Nat.succ_lt_succ hilen, ?_, ?_, ?_⟩
          · intro j hj
            cases j with
            | zero => omega
            | succ j' =>
              show rest'.get? j' = rest.get? j'
              exact hsuf j' (Nat.le_of_succ_le_succ hj)
          · exact ⟨u, hu, hue⟩
          · intro j hj
            cases j with
            | zero => exact ⟨t, t', rfl, hadd, rfl⟩
            | succ j' =>
              rcases hpre j' (Nat.lt_of_succ_lt_succ hj) with ⟨u', t'', h1, h2, h3⟩
              exact ⟨u', t'', h1, h2, h3⟩
    | error e' =>
      rw [hadd] at h
      have h1 : t :: rest = rs' := congrArg Prod.fst h
      have h2 : (some e' : Option Error) = some e := congrArg Prod.snd h
      have he : e' = e := Option.some_injective _ h2
      rw [he] at hadd
      subst h1
      refine ⟨0, Nat.succ_pos _, fun j _ => rfl, ⟨t, rfl, hadd⟩, ?_⟩
      intro j hj
      omega

theorem tiStep_fold_error {K : Type} [DecidableEq K]
    (hashFn : List String → K) (hashers init : List Transform)
    (headers : Headers) (source : Nat)
    {groups : List (K × List Transform)} {row : Row} {k : K}
    {rs rs' : List Transform} {e : Error}
    (hhash : compute_hash hashFn hashers headers row = Except.ok k)
    (hck : containsKey groups k = true)
    (hlook : lookupG groups k = some rs)
    (hfail : addRowAll headers row rs = (rs', some e)) :
    tiStep hashFn hashers init headers source groups row =
      (updateG groups k rs', some (e.at_source source)) := by
  unfold tiStep
  rw [hhash]
  simp only [hck, if_true, hlook, Option.getD_some, hfail]

/-- The `C3` claim, amended: when a reducer's `add_row` fails on a pulled
row of an existing group, the error is yielded immediately, tagged with
the stage's source index, in place of a row; the reducers strictly before
the failing one keep that row's contribution while the failing reducer and
all later ones are untouched by it (so the row contributes to a proper
prefix of the group's reducer states, not to none of them); and the group
survives: it is still registered afterwards and still emitted as a row at
drain time. -/
theorem transform_into_fold_error_amended {K : Type} [DecidableEq K]
    (hashFn : List String → K) (hashers init : List Transform)
    (headers : Headers) (source : Nat)
    (groups : List (K × List Transform)) (row : Row) (rest : List RowResult)
    (k : K) (rs rs' : List Transform) (e : Error)
    (hhash : compute_hash hashFn hashers headers row = Except.ok k)
    (hck : containsKey groups k = true)
    (hlook : lookupG groups k = some rs)
    (hfail : addRowAll headers row rs = (rs', some e)) :
    tiRun hashFn hashers init headers source (Except.ok row :: rest) groups =
      Except.error (e.at_source source) ::
        tiRun hashFn hashers init headers source rest (updateG groups k rs') ∧
    (∃ i, i < rs.length ∧
      (∀ j, i ≤ j → rs'.get? j = rs.get? j) ∧
      (∃ t, rs.get? i = some t ∧ t.add_row headers row = Except.error e) ∧
      (∀ j, j < i → ∃ u t', rs.get? j = some u ∧
        u.add_row headers row = Except.ok t' ∧ rs'.get? j = some t')) ∧
    (∃ ts, lookupG (accumG hashFn hashers init headers source rest
        (updateG groups k rs')) k = some ts ∧
      Except.ok (ts.map Transform.value) ∈
        tiRun hashFn hashers init headers source (Except.ok row :: rest)
          groups) := by
  have hstep := tiStep_fold_error hashFn hashers init headers source
    hhash hck hlook hfail
  have hrun : tiRun hashFn hashers init headers source
      (Except.ok row :: rest) groups =
      Except.error (e.at_source source) ::
        tiRun hashFn hashers init headers source rest (updateG groups k rs') := by
    rw [tiRun_cons_ok]
    simp only [hstep]
  refine ⟨hrun, addRowAll_error_shape headers row rs rs' e hfail, ?_⟩
  have hkmem : k ∈ (updateG groups k rs').map Prod.fst := by
    rw [keys_updateG]
    exact (containsKey_iff groups k).mp hck
  have hkacc : k ∈ (accumG hashFn hashers init headers source rest
      (updateG groups k rs')).map Prod.fst := by
    rw [accumG_keys]
    exact List.mem_append_left _ hkmem
  rcases lookupG_eq_some_of_mem_keys hkacc with ⟨ts, hts⟩
  refine ⟨ts, hts, ?_⟩
  rw [hrun]
  refine List.mem_cons_of_mem _ ?_
  rw [tiRun_eq_errors_append_drain]
  refine List.mem_append_right _ ?_
  exact List.mem_map_of_mem _ (mem_of_lookupG hts)

/-- Witness for `C3`'s amended theorem at a concrete input: the group
`{Name = A}` already holds one folded row; the row `(A, x)` makes the
`Sum` reducer fail with `InvalidField`, the error is emitted at source 0,
and the group continues with the `KeepUnique` and `Count` updates kept. -/
theorem transform_into_fold_error_amended_witness :
    tiRun (K := List String) id
      [Transform.keepUnique "Name" "Name" "", Transform.count "Cnt" 0,
        Transform.sum "Sum" "Score" 0]
      [Transform.keepUnique "Name" "Name" "", Transform.count "Cnt" 0,
        Transform.sum "Sum" "Score" 0]
      { indexes := [("Name", 0), ("Score", 1)], row := ["Name", "Score"] } 0
      [Except.ok ["A", "x"]]
      [(["A"],
        [Transform.keepUnique "Name" "Name" "A", Transform.count "Cnt" 1,
          Transform.sum "Sum" "Score" 1])] =
      Except.error ((Error.invalidField "x").at_source 0) ::
        tiRun (K := List String) id
          [Transform.keepUnique "Name" "Name" "", Transform.count "Cnt" 0,
            Transform.sum "Sum" "Score" 0]
          [Transform.keepUnique "Name" "Name" "", Transform.count "Cnt" 0,
            Transform.sum "Sum" "Score" 0]
          { indexes := [("Name", 0), ("Score", 1)], row := ["Name", "Score"] } 0
          []
          (updateG
            [(["A"],
              [Transform.keepUnique "Name" "Name" "A", Transform.count "Cnt" 1,
                Transform.sum "Sum" "Score" 1])]
            ["A"]
            [Transform.keepUnique "Name" "Name" "A", Transform.count "Cnt" 2,
              Transform.sum "Sum" "Score" 1]) :=
  (transform_into_fold_error_amended (K := List String) id
    [Transform.keepUnique "Name" "Name" "", Transform.count "Cnt" 0,
      Transform.sum "Sum" "Score" 0]
    [Transform.keepUnique "Name" "Name" "", Transform.count "Cnt" 0,
      Transform.sum "Sum" "Score" 0]
    { indexes := [("Name", 0), ("Score", 1)], row := ["Name", "Score"] } 0
    [(["A"],
      [Transform.keepUnique "Name" "Name" "A", Transform.count "Cnt" 1,
        Transform.sum "Sum" "Score" 1])]
    ["A", "x"] [] ["A"]
    [Transform.keepUnique "Name" "Name" "A", Transform.count "Cnt" 1,
      Transform.sum "Sum" "Score" 1]
    [Transform.keepUnique "Name" "Name" "A", Transform.count "Cnt" 2,
      Transform.sum "Sum" "Score" 1]
    (Error.invalidField "x") rfl (by decide) (by simp [lookupG]) rfl).1

/-- Counterexample to `C3` as stated: feeding `(A, 1)` then `(A, x)` to a
Group-Reduce stage with reducers `[KeepUnique Name, Count, Sum Score]`,
the second row's `Sum` fold fails, yet the drained row is `[A, 2, 1]` —
its `Count` value is `2`, so the failing row did contribute to the group's
reducer states (the claim's "contributes nothing" would force `[A, 1, 1]`). -/
theorem transform_into_fold_error_cex :
    tiRun (K := List String) id
      [Transform.keepUnique "Name" "Name" "", Transform.count "Cnt" 0,
        Transform.sum "Sum" "Score" 0]
      [Transform.keepUnique "Name" "Name" "", Transform.count "Cnt" 0,
        Transform.sum "Sum" "Score" 0]
      { indexes := [("Name", 0), ("Score", 1)], row := ["Name", "Score"] } 0
      [Except.ok ["A", "1"], Except.ok ["A", "x"]] [] =
      [Except.error ((Error.invalidField "x").at_source 0),
        Except.ok ["A", "2", "1"]] ∧
    (["A", "2", "1"] : List String) ≠ ["A", "1", "1"] :=
  ⟨rfl, by decide⟩

/-! ### The group hash depends only on KeepUnique columns (claim C6) -/

theorem hashWrites_congr (ts : List Transform) (headers : Headers)
    (r₁ r₂ : Row)
    (hagree : ∀ (n c v : String), Transform.keepUnique n c v ∈ ts →
      headers.get_field r₁ c = headers.get_field r₂ c) :
    hashWrites ts headers r₁ = hashWrites ts headers r₂ := by
  induction ts with
  | nil => rfl
  | cons t rest ih =>
    have hrest : ∀ (n c v : String), Transform.keepUnique n c v ∈ rest →
        headers.get_field r₁ c = headers.get_field r₂ c :=
      fun n c v hm => hagree n c v (List.mem_cons_of_mem _ hm)
    have hcontrib : t.hashContrib headers r₁ = t.hashContrib headers r₂ := by
      cases t with
      | keepUnique n c v =>
        show (match headers.get_field r₁ c with
          | some field => Except.ok [field]
          | none => Except.error (Error.missingColumn c)) =
          (match headers.get_field r₂ c with
          | some field => Except.ok [field]
          | none => Except.error (Error.missingColumn c))
        rw [hagree n c v (List.mem_cons_self _ _)]
      | sum n c v => rfl
      | reduce n c f v => rfl
      | count n v => rfl
    unfold hashWrites
    rw [hcontrib, ih hrest]

/-- The `C6` claim: the group key computed by `compute_hash` depends only
on the fields of the columns referenced by `KeepUnique` reducers — any
two rows agreeing on every `KeepUnique` reducer's `from_col` field get the
same hash result, for every hash-finishing function — and the `Sum`,
`Count` and `Reduce` variants write nothing into the hasher. -/
theorem compute_hash_depends_only_on_keepUnique {K : Type} [DecidableEq K]
    (hashFn : List String → K) (ts : List Transform) (headers : Headers)
    (r₁ r₂ : Row)
    (hagree : ∀ (n c v : String), Transform.keepUnique n c v ∈ ts →
      headers.get_field r₁ c = headers.get_field r₂ c) :
    compute_hash hashFn ts headers r₁ = compute_hash hashFn ts headers r₂ ∧
    (∀ (n c : String) (v : Int) (r : Row),
      (Transform.sum n c v).hashContrib headers r = Except.ok []) ∧
    (∀ (n : String) (v : Nat) (r : Row),
      (Transform.count n v).hashContrib headers r = Except.ok []) ∧
    (∀ (n c : String) (f : String → String → Except Error String)
      (v : String) (r : Row),
      (Transform.reduce n c f v).hashContrib headers r = Except.ok []) := by
  refine ⟨?_, fun _ _ _ _ => rfl, fun _ _ _ => rfl, fun _ _ _ _ _ => rfl⟩
  unfold compute_hash
  rw [hashWrites_congr ts headers r₁ r₂ hagree]

/-- Witness for `C6`: rows `(A, 1)` and `(A, 2)` differ only in the summed
column, so their group hashes agree. -/
theorem compute_hash_depends_only_on_keepUnique_witness :
    compute_hash (K := List String) id
      [Transform.keepUnique "Name" "Name" "", Transform.sum "Sum" "Score" 0,
        Transform.count "Cnt" 0]
      { indexes := [("Name", 0), ("Score", 1)], row := ["Name", "Score"] }
      ["A", "1"] =
    compute_hash (K := List String) id
      [Transform.keepUnique "Name" "Name" "", Transform.sum "Sum" "Score" 0,
        Transform.count "Cnt" 0]
      { indexes := [("Name", 0), ("Score", 1)], row := ["Name", "Score"] }
      ["A", "2"] :=
  (compute_hash_depends_only_on_keepUnique (K := List String) id
    [Transform.keepUnique "Name" "Name" "", Transform.sum "Sum" "Score" 0,
      Transform.count "Cnt" 0]
    { indexes := [("Name", 0), ("Score", 1)], row := ["Name", "Score"] }
    ["A", "1"] ["A", "2"]
    (by
      intro n c v hmem
      simp only [List.mem_cons, List.not_mem_nil, or_false] at hmem
      rcases hmem with hmem | hmem | hmem
      · rcases Transform.keepUnique.inj hmem with ⟨_, hc, _⟩
        subst hc
        rfl
      · exact Transform.noConfusion hmem
      · exact Transform.noConfusion hmem)).1

/-! ### The Filter stage (claim C7) -/

/-- The stream of items emitted by `Filter` (`src/pipeline_iterators.rs`):
the loop pulls until something can be returned — upstream errors pass
through unchanged, rows with a true predicate are yielded unchanged, rows
with a false predicate are skipped, and predicate errors are yielded
tagged with the stage's source index. -/
def filterRun (f : Headers → Row → Except Error Bool) (headers : Headers)
    (source : Nat) : List RowResult → List RowResult
  | [] => []
  | Except.error e :: rest => Except.error e :: filterRun f headers source rest
  | Except.ok row :: rest =>
    match f headers row with
    | Except.ok true => Except.ok row :: filterRun f headers source rest
    | Except.ok false => filterRun f headers source rest
    | Except.error e =>
      Except.error (e.at_source source) :: filterRun f headers source rest

/-- The `C7` claim: the Filter stage yields a row unchanged exactly when
the predicate returns true, emits nothing for a false row, passes
upstream errors through unchanged, tags predicate errors with its source
index, and remains pollable after yielding an error (an error item is
followed by the filtered remainder of the upstream). -/
theorem filter_spec (f : Headers → Row → Except Error Bool)
    (headers : Headers) (source : Nat) :
    (∀ ups : List RowResult,
      filterRun f headers source ups = ups.filterMap (fun item =>
        match item with
        | Except.error e => some (Except.error e)
        | Except.ok row =>
          match f headers row with
          | Except.ok true => some (Except.ok row)
          | Except.ok false => none
          | Except.error e => some (Except.error (e.at_source source)))) ∧
    (∀ (e : PlError) (rest : List RowResult),
      filterRun f headers source (Except.error e :: rest) =
        Except.error e :: filterRun f headers source rest) := by
  refine ⟨?_, fun e rest => rfl⟩
  intro ups
  induction ups with
  | nil => rfl
  | cons item rest ih =>
    cases item with
    | error e => simpa [filterRun] using ih
    | ok row =>
      show (match f headers row with
        | Except.ok true => Except.ok row :: filterRun f headers source rest
        | Except.ok false => filterRun f headers source rest
        | Except.error e =>
          Except.error (e.at_source source) ::
            filterRun f headers source rest) = _
      cases hf : f headers row with
      | ok b =>
        cases b with
        | true => simpa [List.filterMap_cons, hf] using ih
        | false => simpa [List.filterMap_cons, hf] using ih
      | error e => simpa [List.filterMap_cons, hf] using ih

/-! ### Multi-source concatenation (claim C2) -/

/-- A built source pipeline as seen by `PipelinesChain`: its Headers
snapshot and the stream of items it emits. -/
structure PipelineModel where
  headers : Headers
  items : List RowResult

/-- Error items pulled from the current source get their source index
overwritten with the chain's running index (`e.source = self.index` in
`PipelinesChain::next`); `Ok` rows pass unchanged. -/
def retag (item : RowResult) (index : Nat) : RowResult :=
  match item with
  | Except.error e => Except.error { e with source := index }
  | Except.ok row => Except.ok row

/-- The advancing part of `PipelinesChain::next`
(`src/pipeline_iterators.rs`): when the current source is exhausted the
next pipeline is built and becomes the current source with the index
incremented; if its header row differs from the chain's Headers a single
`MismatchedHeaders` error carrying both header rows and the new source's
index is emitted first — but the mismatched pipeline stays installed as
the current source, so its items follow on later pulls.  When no pipeline
remains the stream ends. -/
def chainAdvance (chainHeaders : Headers) :
    List PipelineModel → Nat → List RowResult
  | [], _ => []
  | p :: ps, index =>
    if p.headers.get_row = chainHeaders.get_row then
      p.items.map (retag · (index + 1)) ++
        chainAdvance chainHeaders ps (index + 1)
    else
      Except.error ((Error.mismatchedHeaders chainHeaders.get_row
        p.headers.get_row).at_source (index + 1)) ::
        (p.items.map (retag · (index + 1)) ++
          chainAdvance chainHeaders ps (index + 1))

/-- The stream of items `PipelinesChain` emits: nothing when `current` is
`None`; otherwise the current source's items (errors retagged with the
running index) followed by the advance over the remaining pipelines. -/
def chainRun (chainHeaders : Headers) (current : Option (List RowResult))
    (pipelines : List PipelineModel) (index : Nat) : List RowResult :=
  match current with
  | none => []
  | some items =>
    items.map (retag · index) ++ chainAdvance chainHeaders pipelines index

/-- `Pipeline::from_pipelines` (`src/pipeline.rs`): the chain's Headers
are the first pipeline's (or fresh Headers when the list is empty), the
first pipeline is installed as the current source, and the index starts
at 0. -/
def from_pipelines (pipelines : List PipelineModel) : PipelineModel :=
  match pipelines with
  | [] => { headers := Headers.new, items := chainRun Headers.new none [] 0 }
  | p :: ps =>
    { headers := p.headers, items := chainRun p.headers (some p.items) ps 0 }

/-- Counterexample to `C2` as stated: concatenating a source with headers
`A,B` and then one with headers `ID,Country` emits the single
`MismatchedHeaders` error tagged with source index 1 — but the next pull
yields the mismatched source's row `(3, Norway)`: rows of the mismatched
source ARE read and yielded afterwards, refuting "no further rows are read
or yielded from that mismatched source". -/
theorem chain_mismatch_cex :
    (from_pipelines
      [⟨⟨[("A", 0), ("B", 1)], ["A", "B"]⟩, [Except.ok ["1", "2"]]⟩,
       ⟨⟨[("ID", 0), ("Country", 1)], ["ID", "Country"]⟩,
         [Except.ok ["3", "Norway"]]⟩]).items =
      [Except.ok ["1", "2"],
       Except.error ((Error.mismatchedHeaders ["A", "B"]
         ["ID", "Country"]).at_source 1),
       Except.ok ["3", "Norway"]] ∧
    Except.ok ["3", "Norway"] ∈
      (from_pipelines
        [⟨⟨[("A", 0), ("B", 1)], ["A", "B"]⟩, [Except.ok ["1", "2"]]⟩,
         ⟨⟨[("ID", 0), ("Country", 1)], ["ID", "Country"]⟩,
           [Except.ok ["3", "Norway"]]⟩]).items := by
  refine ⟨rfl, ?_⟩
  rw [show (from_pipelines
      [⟨⟨[("A", 0), ("B", 1)], ["A", "B"]⟩, [Except.ok ["1", "2"]]⟩,
       ⟨⟨[("ID", 0), ("Country", 1)], ["ID", "Country"]⟩,
         [Except.ok ["3", "Norway"]]⟩]).items =
      [Except.ok ["1", "2"],
       Except.error ((Error.mismatchedHeaders ["A", "B"]
         ["ID", "Country"]).at_source 1),
       Except.ok ["3", "Norway"]] from rfl]
  simp

/-- The `C2` claim, amended: at a source boundary where the next
pipeline's header row differs from the chain's Headers, exactly one
`MismatchedHeaders` error carrying both header rows and tagged with the
offending source's index is emitted — and the chain then continues with
the mismatched source's items as if it had been accepted (it is neither
skipped nor stopped); at a matching boundary no error is emitted. -/
theorem chain_mismatch_amended (chainHeaders : Headers) (p : PipelineModel)
    (ps : List PipelineModel) (index : Nat) :
    (p.headers.get_row ≠ chainHeaders.get_row →
      chainRun chainHeaders (some []) (p :: ps) index =
        Except.error ((Error.mismatchedHeaders chainHeaders.get_row
          p.headers.get_row).at_source (index + 1)) ::
          chainRun chainHeaders (some p.items) ps (index + 1)) ∧
    (p.headers.get_row = chainHeaders.get_row →
      chainRun chainHeaders (some []) (p :: ps) index =
        chainRun chainHeaders (some p.items) ps (index + 1)) := by
  constructor
  · intro hne
    show [] ++ chainAdvance chainHeaders (p :: ps) index = _
    rw [List.nil_append, chainAdvance, if_neg hne]
    rfl
  · intro heq
    show [] ++ chainAdvance chainHeaders (p :: ps) index = _
    rw [List.nil_append, chainAdvance, if_pos heq]
    rfl

/-- Witness for `C2`'s amended theorem at a concrete boundary. -/
theorem chain_mismatch_amended_witness :
    chainRun ⟨[("A", 0), ("B", 1)], ["A", "B"]⟩ (some [])
      [⟨⟨[("ID", 0), ("Country", 1)], ["ID", "Country"]⟩,
        [Except.ok ["3", "Norway"]]⟩] 1 =
      Except.error ((Error.mismatchedHeaders ["A", "B"]
        ["ID", "Country"]).at_source 2) ::
        chainRun ⟨[("A", 0), ("B", 1)], ["A", "B"]⟩
          (some [Except.ok ["3", "Norway"]]) [] 2 :=
  (chain_mismatch_amended ⟨[("A", 0), ("B", 1)], ["A", "B"]⟩
    ⟨⟨[("ID", 0), ("Country", 1)], ["ID", "Country"]⟩,
      [Except.ok ["3", "Norway"]]⟩ [] 1).1 (by decide)

/-! ### Delimiter selection in `Pipeline::from_path` (claim C8) -/

/-- The delimiter selection of `Pipeline::from_path` (`src/pipeline.rs`):
`tsv` → tab, `csv` → comma, and any other extension (including the empty
one substituted for a missing extension) hits the
`panic!("Unsupported file ...")` arm, modelled as `none`.  The panic
happens during construction, before any reader or stream item exists. -/
def from_path_delimiter (ext : String) : Option Char :=
  match ext with
  | "tsv" => some '\t'
  | "csv" => some ','
  | _ => none

/-- Counterexample to `C8` as stated: the extension `txt` does not select
the comma delimiter — `from_path` panics on it (modelled `none`), so
"the comma delimiter for csv or any other extension" is false, and the
failure is a panic, not a returned error. -/
theorem from_path_delimiter_cex :
    from_path_delimiter "txt" = none ∧
    from_path_delimiter "txt" ≠ some ',' := by
  decide

/-- The `C8` claim, amended: `from_path` selects the tab delimiter for the
`tsv` extension and the comma delimiter for `csv` only; every other
extension causes an immediate construction-time panic (modelled `none`) —
a fatal failure before any pipeline or lazy stream item exists, though a
panic rather than a returned error. -/
theorem from_path_delimiter_amended :
    from_path_delimiter "tsv" = some '\t' ∧
    from_path_delimiter "csv" = some ',' ∧
    (∀ ext : String, ext ≠ "tsv" → ext ≠ "csv" →
      from_path_delimiter ext = none) := by
  refine ⟨rfl, rfl, ?_⟩
  intro ext h1 h2
  unfold from_path_delimiter
  split
  · exact absurd rfl h1
  · exact absurd rfl h2
  · rfl

/-- Witness for `C8`'s amended theorem at a concrete extension. -/
theorem from_path_delimiter_amended_witness :
    from_path_delimiter "md" = none :=
  from_path_delimiter_amended.2.2 "md" (by decide) (by decide)

/-! ### Order-insensitivity within a group (claim C9) -/

section C9Lemmas

variable {K : Type} [DecidableEq K]

theorem lookupG_eq_none_of_not_containsKey {groups : List (K × List Transform)}
    {k : K} (h : containsKey groups k = false) : lookupG groups k = none := by
  induction groups with
  | nil => rfl
  | cons g rest ih =>
    obtain ⟨k', v⟩ := g
    unfold containsKey at h ih
    simp only [List.any_cons, Bool.or_eq_false_iff] at h
    have hk : ¬ k' = k := by
      intro heq
      rw [heq] at h
      simp at h
    simp [lookupG, hk, ih h.2]

theorem lookupG_append_self {groups : List (K × List Transform)} {k : K}
    (h : lookupG groups k = none) (v : List Transform) :
    lookupG (groups ++ [(k, v)]) k = some v := by
  induction groups with
  | nil => simp [lookupG]
  | cons g rest ih =>
    obtain ⟨k', v'⟩ := g
    by_cases hk : k' = k
    · simp [lookupG, hk] at h
    · simp only [lookupG, hk, if_false] at h ⊢
      simpa [lookupG, hk] using ih h

theorem lookupG_append_ne {k k' : K} (hne : k' ≠ k)
    (groups : List (K × List Transform)) (v : List Transform) :
    lookupG (groups ++ [(k', v)]) k = lookupG groups k := by
  induction groups with
  | nil => simp [lookupG, hne]
  | cons g rest ih =>
    obtain ⟨k'', v''⟩ := g
    by_cases hk : k'' = k <;> simp [lookupG, hk, ih]

theorem lookupG_updateG_self {groups : List (K × List Transform)} {k : K}
    {rs : List Transform} (h : lookupG groups k = some rs)
    (v : List Transform) : lookupG (updateG groups k v) k = some v := by
  induction groups with
  | nil => simp [lookupG] at h
  | cons g rest ih =>
    obtain ⟨k', v'⟩ := g
    by_cases hk : k' = k
    · simp [updateG, lookupG, hk]
    · simp only [lookupG, hk, if_false] at h
      simpa [updateG, lookupG, hk] using ih h

theorem lookupG_updateG_ne {k k' : K} (hne : k' ≠ k)
    (groups : List (K × List Transform)) (v : List Transform) :
    lookupG (updateG groups k' v) k = lookupG groups k := by
  induction groups with
  | nil => rfl
  | cons g rest ih =>
    obtain ⟨k'', v''⟩ := g
    by_cases hk : k'' = k'
    · have hne2 : ¬ k = k' := fun h => hne (Eq.symm h)
      subst hk
      simp [updateG, lookupG, hne, hne2]
    · have hne2 : ¬ k = k' := fun h => hne (Eq.symm h)
      by_cases hk2 : k'' = k <;> simp [updateG, lookupG, hk, hk2, ih, hne2]

variable (hashFn : List String → K) (hashers init : List Transform)
  (headers : Headers) (source : Nat)

/-- The upstream's `Ok` rows whose group hash computes to `k`, in stream
order — the rows that belong to group `k`. -/
def memberRows (k : K) : List RowResult → List Row
  | [] => []
  | Except.error _ :: rest => memberRows k rest
  | Except.ok row :: rest =>
    if compute_hash hashFn hashers headers row = Except.ok k
    then row :: memberRows k rest
    else memberRows k rest

/-- Folding a sequence of rows into a reducer list, one `addRowAll` per
row (partial updates on errors included, as in the engine). -/
def foldRows (rs : List Transform) (rows : List Row) : List Transform :=
  rows.foldl (fun rs row => (addRowAll headers row rs).1) rs

/-- The evolution of one group's registry entry over its member rows:
`none` until the first member materializes the entry from `init`. -/
def groupTrace (acc : Option (List Transform)) (rows : List Row) :
    Option (List Transform) :=
  rows.foldl
    (fun acc row => some (addRowAll headers row (acc.getD init)).1) acc

theorem groupTrace_some (rs : List Transform) (rows : List Row) :
    groupTrace init headers (some rs) rows =
      some (foldRows headers rs rows) := by
  induction rows generalizing rs with
  | nil => rfl
  | cons row rest ih =>
    show groupTrace init headers (some (addRowAll headers row rs).1) rest = _
    rw [ih]
    rfl

theorem groupTrace_none (rows : List Row) :
    groupTrace init headers none rows =
      match rows with
      | [] => none
      | _ :: _ => some (foldRows headers init rows) := by
  cases rows with
  | nil => rfl
  | cons row rest =>
    show groupTrace init headers (some (addRowAll headers row init).1) rest = _
    rw [groupTrace_some]
    rfl

/-- Locality of the Group-Reduce state: the registry entry of key `k`
after accumulating the whole upstream depends only on its previous entry
and the subsequence of rows belonging to group `k`. -/
theorem lookupG_accumG (k : K) (ups : List RowResult) :
    ∀ groups : List (K × List Transform),
      lookupG (accumG hashFn hashers init headers source ups groups) k =
        groupTrace init headers (lookupG groups k)
          (memberRows hashFn hashers headers k ups) := by
  induction ups with
  | nil => intro groups; rfl
  | cons item rest ih =>
    intro groups
    cases item with
    | error e => exact ih groups
    | ok row =>
      rw [accumG_cons_ok]
      show lookupG
          (accumG hashFn hashers init headers source rest
            (tiStep hashFn hashers init headers source groups row).1) k = _
      cases hch : compute_hash hashFn hashers headers row with
      | error e =>
        have hstep1 : (tiStep hashFn hashers init headers source groups row).1
            = groups := by
          unfold tiStep
          rw [hch]
        have hmem : memberRows hashFn hashers headers k
            (Except.ok row :: rest) = memberRows hashFn hashers headers k rest := by
          show (if compute_hash hashFn hashers headers row = Except.ok k
            then row :: memberRows hashFn hashers headers k rest
            else memberRows hashFn hashers headers k rest) = _
          rw [hch]
          simp
        rw [hstep1, hmem]
        exact ih groups
      | ok k' =>
        have hbase :
            lookupG (if containsKey groups k' then groups
              else groups ++ [(k', init)]) k'
            = some ((lookupG groups k').getD init) := by
          by_cases hck : containsKey groups k'
          · rcases lookupG_eq_some_of_mem_keys
              ((containsKey_iff groups k').mp hck) with ⟨rs, hrs⟩
            rw [if_pos hck, hrs]
            rfl
          · have hnone : lookupG groups k' = none :=
              lookupG_eq_none_of_not_containsKey (by simpa using hck)
            rw [if_neg hck, lookupG_append_self hnone, hnone]
            rfl
        have hstep1 : (tiStep hashFn hashers init headers source groups row).1
            = updateG (if containsKey groups k' then groups
                else groups ++ [(k', init)]) k'
                (addRowAll headers row ((lookupG groups k').getD init)).1 := by
          unfold tiStep
          rw [hch]
          simp only [hbase, Option.getD_some]
          cases haddr : addRowAll headers row ((lookupG groups k').getD init) with
          | mk rs oe => cases oe <;> rfl
        rw [hstep1]
        by_cases hkk : k' = k
        · subst hkk
          have hmem : memberRows hashFn hashers headers k'
              (Except.ok row :: rest)
              = row :: memberRows hashFn hashers headers k' rest := by
            show (if compute_hash hashFn hashers headers row = Except.ok k'
              then row :: memberRows hashFn hashers headers k' rest
              else memberRows hashFn hashers headers k' rest) = _
            rw [hch]
            simp
          rw [hmem, ih]
          have hlook2 : lookupG
              (updateG (if containsKey groups k' then groups
                else groups ++ [(k', init)]) k'
                (addRowAll headers row ((lookupG groups k').getD init)).1) k'
              = some (addRowAll headers row ((lookupG groups k').getD init)).1 :=
            lookupG_updateG_self hbase _
          rw [hlook2]
          rw [show groupTrace init headers (lookupG groups k')
              (row :: memberRows hashFn hashers headers k' rest)
              = groupTrace init headers
                  (some (addRowAll headers row
                    ((lookupG groups k').getD init)).1)
                  (memberRows hashFn hashers headers k' rest) from rfl]
        · have hmem : memberRows hashFn hashers headers k
              (Except.ok row :: rest)
              = memberRows hashFn hashers headers k rest := by
            show (if compute_hash hashFn hashers headers row = Except.ok k
              then row :: memberRows hashFn hashers headers k rest
              else memberRows hashFn hashers headers k rest) = _
            rw [hch]
            simp only [Except.ok.injEq]
            rw [if_neg hkk]
          rw [hmem, ih]
          have hlook2 : lookupG
              (updateG (if containsKey groups k' then groups
                else groups ++ [(k', init)]) k'
                (addRowAll headers row ((lookupG groups k').getD init)).1) k
              = lookupG groups k := by
            rw [lookupG_updateG_ne hkk]
            by_cases hck : containsKey groups k'
            · rw [if_pos hck]
            · rw [if_neg hck, lookupG_append_ne hkk]
          rw [hlook2]

end C9Lemmas

/-- Whether a transform is one of the three standard variants (not the
user-closure `Reduce`, whose success may depend on its accumulated
state). -/
def noRed : Transform → Bool
  | Transform.reduce _ _ _ _ => false
  | _ => true

/-- One reducer's update-or-keep on a row (`add_row`, keeping the old
state on failure, as the engine's registry does). -/
def updT (headers : Headers) (row : Row) (t : Transform) : Transform :=
  match t.add_row headers row with
  | Except.ok t' => t'
  | Except.error _ => t

/-- Whether one reducer's `add_row` succeeds on a row. -/
def rowOkT (headers : Headers) (t : Transform) (row : Row) : Bool :=
  match t.add_row headers row with
  | Except.ok _ => true
  | Except.error _ => false

theorem add_row_keepUnique (headers : Headers) (n c v : String) (row : Row) :
    (Transform.keepUnique n c v).add_row headers row =
      match headers.get_field row c with
      | some field => Except.ok (Transform.keepUnique n c field)
      | none => Except.error (Error.missingColumn c) := rfl

theorem add_row_sum (headers : Headers) (n c : String) (v : Int) (row : Row) :
    (Transform.sum n c v).add_row headers row =
      match headers.get_field row c with
      | none => Except.error (Error.missingColumn c)
      | some field =>
        match parseIntOpt field with
        | some x => Except.ok (Transform.sum n c (v + x))
        | none => Except.error (Error.invalidField field) := rfl

theorem add_row_count (headers : Headers) (n : String) (v : Nat) (row : Row) :
    (Transform.count n v).add_row headers row =
      Except.ok (Transform.count n (v + 1)) := rfl

theorem updT_keepUnique (headers : Headers) (n c v : String) (row : Row) :
    updT headers row (Transform.keepUnique n c v) =
      Transform.keepUnique n c ((headers.get_field row c).getD v) := by
  simp only [updT, add_row_keepUnique]
  cases headers.get_field row c <;> simp

theorem updT_sum (headers : Headers) (n c : String) (v : Int) (row : Row) :
    updT headers row (Transform.sum n c v) =
      Transform.sum n c
        (v + ((headers.get_field row c).bind parseIntOpt).getD 0) := by
  simp only [updT, add_row_sum]
  cases hf : headers.get_field row c with
  | none => simp
  | some field =>
    cases hp : parseIntOpt field with
    | none => simp [hp]
    | some x => simp [hp]

theorem rowOkT_keepUnique (headers : Headers) (n c v : String) (row : Row) :
    rowOkT headers (Transform.keepUnique n c v) row =
      (headers.get_field row c).isSome := by
  simp only [rowOkT, add_row_keepUnique]
  cases headers.get_field row c <;> simp

theorem rowOkT_sum (headers : Headers) (n c : String) (v : Int) (row : Row) :
    rowOkT headers (Transform.sum n c v) row =
      ((headers.get_field row c).bind parseIntOpt).isSome := by
  simp only [rowOkT, add_row_sum]
  cases hf : headers.get_field row c with
  | none => simp
  | some field =>
    cases hp : parseIntOpt field with
    | none => simp [hp]
    | some x => simp [hp]

theorem noRed_updT (headers : Headers) (row : Row) {t : Transform}
    (hnr : noRed t = true) : noRed (updT headers row t) = true := by
  cases t with
  | keepUnique n c v => rw [updT_keepUnique]; rfl
  | sum n c v => rw [updT_sum]; rfl
  | reduce n c f v => simp [noRed] at hnr
  | count n v => rfl

theorem rowOkT_updT (headers : Headers) {t : Transform}
    (hnr : noRed t = true) (row row' : Row) :
    rowOkT headers (updT headers row' t) row = rowOkT headers t row := by
  cases t with
  | keepUnique n c v =>
    rw [updT_keepUnique, rowOkT_keepUnique, rowOkT_keepUnique]
  | sum n c v =>
    rw [updT_sum, rowOkT_sum, rowOkT_sum]
  | reduce n c f v => simp [noRed] at hnr
  | count n v => rfl

theorem addRowAll_cons_fst (headers : Headers) (row : Row) (t : Transform)
    (ts : List Transform) :
    (addRowAll headers row (t :: ts)).1 =
      if rowOkT headers t row
      then updT headers row t :: (addRowAll headers row ts).1
      else t :: ts := by
  show (match t.add_row headers row with
    | Except.ok t' =>
      match addRowAll headers row ts with
      | (rest', e) => (t' :: rest', e)
    | Except.error e => (t :: ts, some e)).1 = _
  cases hadd : t.add_row headers row with
  | ok t' =>
    cases hrec : addRowAll headers row ts with
    | mk rest' oe => simp [rowOkT, updT, hadd, hrec]
  | error e => simp [rowOkT, updT, hadd]

theorem foldRows_cons (headers : Headers) :
    ∀ (l : List Row) (t : Transform) (ts : List Transform),
      noRed t = true →
      foldRows headers (t :: ts) l =
        (l.filter (rowOkT headers t)).foldl
          (fun acc row => updT headers row acc) t ::
          foldRows headers ts (l.filter (rowOkT headers t)) := by
  intro l
  induction l with
  | nil => intro t ts _; rfl
  | cons row l' ih =>
    intro t ts hnr
    show foldRows headers (addRowAll headers row (t :: ts)).1 l' = _
    rw [addRowAll_cons_fst]
    cases hok : rowOkT headers t row with
    | true =>
      rw [if_pos rfl]
      rw [ih (updT headers row t) (addRowAll headers row ts).1
        (noRed_updT headers row hnr)]
      have hfun : rowOkT headers (updT headers row t) = rowOkT headers t :=
        funext (fun r => rowOkT_updT headers hnr r row)
      rw [hfun]
      rw [show (row :: l').filter (rowOkT headers t)
          = row :: l'.filter (rowOkT headers t) from by
        simp [List.filter_cons, hok]]
      rfl
    | false =>
      rw [if_neg (by simp)]
      rw [ih t ts hnr]
      rw [show (row :: l').filter (rowOkT headers t)
          = l'.filter (rowOkT headers t) from by
        simp [List.filter_cons, hok]]

/-- The parsed numeric contribution of a row to a `Sum` reducer over
column `c` (0 when the field is absent or unparseable — exactly the rows
on which `add_row` fails and leaves the accumulator unchanged). -/
def parsedD (headers : Headers) (c : String) (row : Row) : Int :=
  ((headers.get_field row c).bind parseIntOpt).getD 0

theorem foldl_updT_count (headers : Headers) (n : String) (l : List Row) :
    ∀ v : Nat,
      l.foldl (fun acc row => updT headers row acc) (Transform.count n v) =
        Transform.count n (v + l.length) := by
  induction l with
  | nil => intro v; rfl
  | cons row l' ih =>
    intro v
    show l'.foldl _ (updT headers row (Transform.count n v)) = _
    rw [show updT headers row (Transform.count n v)
        = Transform.count n (v + 1) from rfl]
    rw [ih (v + 1)]
    have : v + 1 + l'.length = v + (row :: l').length := by
      simp [List.length_cons]
      omega
    rw [this]

theorem foldl_updT_sum (headers : Headers) (n c : String) (l : List Row) :
    ∀ v : Int,
      l.foldl (fun acc row => updT headers row acc) (Transform.sum n c v) =
        Transform.sum n c (v + (l.map (parsedD headers c)).sum) := by
  induction l with
  | nil => intro v; simp
  | cons row l' ih =>
    intro v
    show l'.foldl _ (updT headers row (Transform.sum n c v)) = _
    rw [show updT headers row (Transform.sum n c v)
        = Transform.sum n c (v + parsedD headers c row) from by
      rw [updT_sum]; rfl]
    rw [ih]
    have : v + parsedD headers c row + (l'.map (parsedD headers c)).sum
        = v + ((row :: l').map (parsedD headers c)).sum := by
      simp [List.map_cons, List.sum_cons]
      ring
    rw [this]

theorem foldl_updT_keepUnique (headers : Headers) (n c w : String) :
    ∀ (l : List Row), (∀ row ∈ l, headers.get_field row c = some w) →
    ∀ v : String,
      l.foldl (fun acc row => updT headers row acc)
        (Transform.keepUnique n c v) =
        if l.isEmpty then Transform.keepUnique n c v
        else Transform.keepUnique n c w := by
  intro l
  induction l with
  | nil => intro _ v; rfl
  | cons row l' ih =>
    intro hw v
    show l'.foldl _ (updT headers row (Transform.keepUnique n c v)) = _
    have hrow : headers.get_field row c = some w :=
      hw row (List.mem_cons_self _ _)
    rw [show updT headers row (Transform.keepUnique n c v)
        = Transform.keepUnique n c w from by
      rw [updT_keepUnique, hrow]
      rfl]
    rw [ih (fun r hr => hw r (List.mem_cons_of_mem _ hr)) w]
    cases l'.isEmpty <;> simp

theorem foldRows_nil_transforms (headers : Headers) :
    ∀ l : List Row, foldRows headers [] l = [] := by
  intro l
  induction l with
  | nil => rfl
  | cons row l' ih =>
    show foldRows headers (addRowAll headers row []).1 l' = []
    exact ih

theorem hashWrites_cons_sum (headers : Headers) (n c : String) (v : Int)
    (ts : List Transform) (row : Row) :
    hashWrites (Transform.sum n c v :: ts) headers row =
      hashWrites ts headers row := by
  show (match (Transform.sum n c v).hashContrib headers row with
    | Except.error e => Except.error e
    | Except.ok w =>
      match hashWrites ts headers row with
      | Except.error e => Except.error e
      | Except.ok ws => Except.ok (w ++ ws)) = _
  cases hashWrites ts headers row <;> simp [Transform.hashContrib]

theorem hashWrites_cons_count (headers : Headers) (n : String) (v : Nat)
    (ts : List Transform) (row : Row) :
    hashWrites (Transform.count n v :: ts) headers row =
      hashWrites ts headers row := by
  show (match (Transform.count n v).hashContrib headers row with
    | Except.error e => Except.error e
    | Except.ok w =>
      match hashWrites ts headers row with
      | Except.error e => Except.error e
      | Except.ok ws => Except.ok (w ++ ws)) = _
  cases hashWrites ts headers row <;> simp [Transform.hashContrib]

theorem hashContrib_keepUnique (headers : Headers) (n c v : String)
    (row : Row) :
    (Transform.keepUnique n c v).hashContrib headers row =
      (match headers.get_field row c with
       | some field => Except.ok [field]
       | none => Except.error (Error.missingColumn c)) := rfl

theorem hashWrites_cons_keepUnique {headers : Headers} {n c v : String}
    {ts : List Transform} {row : Row} {cs : List String}
    (h : hashWrites (Transform.keepUnique n c v :: ts) headers row =
      Except.ok cs) :
    ∃ field ws, headers.get_field row c = some field ∧
      hashWrites ts headers row = Except.ok ws ∧ cs = field :: ws := by
  have hh : (match (Transform.keepUnique n c v).hashContrib headers row with
    | Except.error e => Except.error e
    | Except.ok w =>
      match hashWrites ts headers row with
      | Except.error e => Except.error e
      | Except.ok ws => Except.ok (w ++ ws)) = Except.ok cs := h
  rw [hashContrib_keepUnique] at hh
  cases hf : headers.get_field row c with
  | none =>
    rw [hf] at hh
    simp at hh
  | some field =>
    rw [hf] at hh
    cases hws : hashWrites ts headers row with
    | error e =>
      rw [hws] at hh
      simp at hh
    | ok ws =>
      rw [hws] at hh
      simp at hh
      exact ⟨field, ws, rfl, rfl, hh.symm⟩

/-- Permutation invariance of the finalized values of a reducer list made
of the standard variants, over any two row sequences that are permutations
of one another and share the same hasher writes `cs` (i.e. rows of one
group under an injective hash). -/
theorem foldRows_values_perm (headers : Headers) :
    ∀ (ts : List Transform) (cs : List String) (l₁ l₂ : List Row),
      l₁.Perm l₂ →
      (∀ t ∈ ts, noRed t = true) →
      (∀ row ∈ l₁, hashWrites ts headers row = Except.ok cs) →
      (∀ row ∈ l₂, hashWrites ts headers row = Except.ok cs) →
      (foldRows headers ts l₁).map Transform.value =
        (foldRows headers ts l₂).map Transform.value := by
  intro ts
  induction ts with
  | nil =>
    intro cs l₁ l₂ _ _ _ _
    rw [foldRows_nil_transforms, foldRows_nil_transforms]
  | cons t ts ih =>
    intro cs l₁ l₂ hperm hnr h₁ h₂
    have hnrt : noRed t = true := hnr t (List.mem_cons_self _ _)
    have hnrts : ∀ t' ∈ ts, noRed t' = true :=
      fun t' ht' => hnr t' (List.mem_cons_of_mem _ ht')
    rw [foldRows_cons headers l₁ t ts hnrt, foldRows_cons headers l₂ t ts hnrt]
    simp only [List.map_cons]
    cases t with
    | reduce n c f v => simp [noRed] at hnrt
    | count n v =>
      have hfil : ∀ l : List Row,
          l.filter (rowOkT headers (Transform.count n v)) = l := by
        intro l
        apply List.filter_eq_self.mpr
        intro r _
        rfl
      rw [hfil, hfil, foldl_updT_count, foldl_updT_count, hperm.length_eq]
      congr 1
      refine ih cs l₁ l₂ hperm hnrts ?_ ?_
      · intro r hr
        have := h₁ r hr
        rwa [hashWrites_cons_count] at this
      · intro r hr
        have := h₂ r hr
        rwa [hashWrites_cons_count] at this
    | sum n c v =>
      have hfil : (l₁.filter (rowOkT headers (Transform.sum n c v))).Perm
          (l₂.filter (rowOkT headers (Transform.sum n c v))) :=
        hperm.filter _
      rw [foldl_updT_sum, foldl_updT_sum]
      have hsum : ((l₁.filter (rowOkT headers (Transform.sum n c v))).map
          (parsedD headers c)).sum =
          ((l₂.filter (rowOkT headers (Transform.sum n c v))).map
            (parsedD headers c)).sum :=
        (hfil.map _).sum_eq
      rw [hsum]
      congr 1
      refine ih cs _ _ hfil hnrts ?_ ?_
      · intro r hr
        have := h₁ r (List.mem_of_mem_filter hr)
        rwa [hashWrites_cons_sum] at this
      · intro r hr
        have := h₂ r (List.mem_of_mem_filter hr)
        rwa [hashWrites_cons_sum] at this
    | keepUnique n c v =>
      by_cases hnil : l₁ = []
      · have hnil₂ : l₂ = [] := by
          rw [hnil] at hperm
          exact hperm.symm.eq_nil
        rw [hnil, hnil₂]
      · rcases List.exists_mem_of_ne_nil l₁ hnil with ⟨r₀, hr₀⟩
        rcases hashWrites_cons_keepUnique (h₁ r₀ hr₀) with
          ⟨field₀, ws₀, _, _, hcs⟩
        subst hcs
        have h₁' : ∀ row ∈ l₁, headers.get_field row c = some field₀ ∧
            hashWrites ts headers row = Except.ok ws₀ := by
          intro row hrow
          rcases hashWrites_cons_keepUnique (h₁ row hrow) with
            ⟨f', ws', hf', hw', hcs'⟩
          obtain ⟨hfeq, hwseq⟩ := List.cons.inj hcs'
          exact ⟨hfeq ▸ hf', hwseq ▸ hw'⟩
        have h₂' : ∀ row ∈ l₂, headers.get_field row c = some field₀ ∧
            hashWrites ts headers row = Except.ok ws₀ := by
          intro row hrow
          rcases hashWrites_cons_keepUnique (h₂ row hrow) with
            ⟨f', ws', hf', hw', hcs'⟩
          obtain ⟨hfeq, hwseq⟩ := List.cons.inj hcs'
          exact ⟨hfeq ▸ hf', hwseq ▸ hw'⟩
        have hfil₁ : l₁.filter (rowOkT headers (Transform.keepUnique n c v))
            = l₁ := by
          apply List.filter_eq_self.mpr
          intro r hr
          rw [rowOkT_keepUnique, (h₁' r hr).1]
          rfl
        have hfil₂ : l₂.filter (rowOkT headers (Transform.keepUnique n c v))
            = l₂ := by
          apply List.filter_eq_self.mpr
          intro r hr
          rw [rowOkT_keepUnique, (h₂' r hr).1]
          rfl
        rw [hfil₁, hfil₂]
        rw [foldl_updT_keepUnique headers n c field₀ l₁
          (fun r hr => (h₁' r hr).1) v]
        rw [foldl_updT_keepUnique headers n c field₀ l₂
          (fun r hr => (h₂' r hr).1) v]
        have hnil₂ : l₂ ≠ [] := by
          intro h
          rw [h] at hperm
          exact hnil hperm.eq_nil
        rw [if_neg (by simpa [List.isEmpty_iff] using hnil),
          if_neg (by simpa [List.isEmpty_iff] using hnil₂)]
        congr 1
        exact ih ws₀ l₁ l₂ hperm hnrts
          (fun r hr => (h₁' r hr).2) (fun r hr => (h₂' r hr).2)

theorem compute_hash_ok_iff {K : Type} [DecidableEq K]
    (hashFn : List String → K) (ts : List Transform) (headers : Headers)
    (row : Row) (k : K) :
    compute_hash hashFn ts headers row = Except.ok k ↔
      ∃ ws, hashWrites ts headers row = Except.ok ws ∧ hashFn ws = k := by
  unfold compute_hash
  cases hws : hashWrites ts headers row <;> simp [Except.map]

theorem compute_hash_of_mem_memberRows {K : Type} [DecidableEq K]
    (hashFn : List String → K) (hashers : List Transform)
    (headers : Headers) (k : K) :
    ∀ (ups : List RowResult) (row : Row),
      row ∈ memberRows hashFn hashers headers k ups →
      compute_hash hashFn hashers headers row = Except.ok k := by
  intro ups
  induction ups with
  | nil => intro row h; simp [memberRows] at h
  | cons item rest ih =>
    intro row h
    cases item with
    | error e => exact ih row h
    | ok r =>
      revert h
      show row ∈ (if compute_hash hashFn hashers headers r = Except.ok k
        then r :: memberRows hashFn hashers headers k rest
        else memberRows hashFn hashers headers k rest) → _
      by_cases hch : compute_hash hashFn hashers headers r = Except.ok k
      · rw [if_pos hch]
        intro h
        rcases List.mem_cons.mp h with h | h
        · exact h ▸ hch
        · exact ih row h
      · rw [if_neg hch]
        exact ih row

/-- The `C9` claim: Group-Reduce is order-insensitive within a group.
For an injective hash finisher (the spec's idealization of
`DefaultHasher`) and reducers drawn from the standard `Sum`, `Count` and
`KeepUnique` variants, any two upstreams whose subsequences of rows
belonging to group `k` are permutations of each other produce the same
finalized string values for that group (the `hashers` and per-group
reducer lists are both `get_transformers()`, i.e. the same list, as in
`transform_into`). -/
theorem transform_into_within_group_order_insensitive {K : Type}
    [DecidableEq K] (hashFn : List String → K)
    (hinj : Function.Injective hashFn)
    (init : List Transform) (hnr : ∀ t ∈ init, noRed t = true)
    (headers : Headers) (source : Nat) (k : K) (ups₁ ups₂ : List RowResult)
    (hperm : (memberRows hashFn init headers k ups₁).Perm
      (memberRows hashFn init headers k ups₂)) :
    (lookupG (accumG hashFn init init headers source ups₁ []) k).map
        (fun ts => ts.map Transform.value) =
      (lookupG (accumG hashFn init init headers source ups₂ []) k).map
        (fun ts => ts.map Transform.value) := by
  rw [lookupG_accumG hashFn init init headers source k ups₁ [],
    lookupG_accumG hashFn init init headers source k ups₂ []]
  rw [show lookupG ([] : List (K × List Transform)) k = none from rfl]
  rw [groupTrace_none, groupTrace_none]
  cases hm₁ : memberRows hashFn init headers k ups₁ with
  | nil =>
    rw [show memberRows hashFn init headers k ups₂ = [] from
      (hm₁ ▸ hperm).symm.eq_nil]
  | cons r₀ m₁' =>
    have hm₂ne : memberRows hashFn init headers k ups₂ ≠ [] := by
      intro h
      rw [h] at hperm
      rw [hperm.eq_nil] at hm₁
      exact List.noConfusion hm₁
    obtain ⟨r₂, m₂', hm₂⟩ : ∃ a l, memberRows hashFn init headers k ups₂
        = a :: l := by
      cases hm : memberRows hashFn init headers k ups₂ with
      | nil => exact absurd hm hm₂ne
      | cons a l => exact ⟨a, l, rfl⟩
    rw [hm₂]
    show some ((foldRows headers init (r₀ :: m₁')).map Transform.value) =
      some ((foldRows headers init (r₂ :: m₂')).map Transform.value)
    congr 1
    have hr₀ : compute_hash hashFn init headers r₀ = Except.ok k :=
      compute_hash_of_mem_memberRows hashFn init headers k ups₁ r₀
        (hm₁ ▸ List.mem_cons_self r₀ m₁')
    rcases (compute_hash_ok_iff hashFn init headers r₀ k).mp hr₀ with
      ⟨cs, hcs, hcsk⟩
    have hall : ∀ (ups : List RowResult) (row : Row),
        row ∈ memberRows hashFn init headers k ups →
        hashWrites init headers row = Except.ok cs := by
      intro ups row hrow
      rcases (compute_hash_ok_iff hashFn init headers row k).mp
        (compute_hash_of_mem_memberRows hashFn init headers k ups row hrow)
        with ⟨cs', hcs', hcsk'⟩
      rw [hcs']
      rw [hinj (hcsk'.trans hcsk.symm)]
    have hperm' : (r₀ :: m₁').Perm (r₂ :: m₂') := hm₁ ▸ hm₂ ▸ hperm
    exact foldRows_values_perm headers init cs (r₀ :: m₁') (r₂ :: m₂')
      hperm' hnr
      (fun r hr => hall ups₁ r (hm₁ ▸ hr))
      (fun r hr => hall ups₂ r (hm₂ ▸ hr))

/-- Witness for `C9` at a concrete input: swapping the two rows of group
`A` around the fixed `B` row leaves the group's finalized values
unchanged. -/
theorem transform_into_within_group_order_insensitive_witness :
    (lookupG (accumG (K := List String) id
        [Transform.keepUnique "Name" "Name" "", Transform.count "Cnt" 0,
          Transform.sum "Sum" "Score" 0]
        [Transform.keepUnique "Name" "Name" "", Transform.count "Cnt" 0,
          Transform.sum "Sum" "Score" 0]
        { indexes := [("Name", 0), ("Score", 1)], row := ["Name", "Score"] } 0
        [Except.ok ["A", "1"], Except.ok ["B", "5"], Except.ok ["A", "3"]]
        []) ["A"]).map (fun ts => ts.map Transform.value) =
    (lookupG (accumG (K := List String) id
        [Transform.keepUnique "Name" "Name" "", Transform.count "Cnt" 0,
          Transform.sum "Sum" "Score" 0]
        [Transform.keepUnique "Name" "Name" "", Transform.count "Cnt" 0,
          Transform.sum "Sum" "Score" 0]
        { indexes := [("Name", 0), ("Score", 1)], row := ["Name", "Score"] } 0
        [Except.ok ["A", "3"], Except.ok ["B", "5"], Except.ok ["A", "1"]]
        []) ["A"]).map (fun ts => ts.map Transform.value) :=
  transform_into_within_group_order_insensitive (K := List String) id
    (fun _ _ h => h)
    [Transform.keepUnique "Name" "Name" "", Transform.count "Cnt" 0,
      Transform.sum "Sum" "Score" 0]
    (by decide)
    { indexes := [("Name", 0), ("Score", 1)], row := ["Name", "Score"] } 0
    ["A"]
    [Except.ok ["A", "1"], Except.ok ["B", "5"], Except.ok ["A", "3"]]
    [Except.ok ["A", "3"], Except.ok ["B", "5"], Except.ok ["A", "1"]]
    (by decide)

end CsvPipeline
